import Mathlib

/-!
Shallow embedding of the track-changes CRDT (the newer `CAnnotationLog` /
`TrackChanges` variant) of this repository, together with theorems checking
the frozen claims about it.

Conventions of the embedding:
* `Position` is a `Nat`, an opaque identifier of one character slot of the
  text CRDT.  The total order on positions is NOT the order on `Nat`: it is
  the order in which the slots occur in the replica's slot list (`Slot`
  list), exactly as the source's positions are ordered by the underlying
  total order, not by their string contents.
* Annotation records are one structure with optional fields, mirroring the
  TypeScript tagged union whose variants share a common base.
* JavaScript `Map`s are association lists with `Map` semantics: `set` of an
  existing key updates in place, `set` of a new key appends, iteration is in
  insertion order.
-/

/-- Type of an annotation record: comment or suggestion (`AnnotationType`). -/
inductive AnnotationType where
  | comment
  | suggestion
deriving DecidableEq, Repr

/-- Action of a record: addition, removal or update (`AnnotationAction`). -/
inductive AnnotationAction where
  | addition
  | removal
  | update
deriving DecidableEq, Repr

/-- Detailed description of a record (`AnnotationDescription`). -/
inductive AnnotationDescription where
  | addComment
  | removeComment
  | insertSuggestion
  | deleteSuggestion
  | acceptSuggestion
  | declineSuggestion
deriving DecidableEq, Repr

/-- Reason attached to an `AnnotationRemoved` event
(`AnnotationRemovalReason`). -/
inductive AnnotationRemovalReason where
  | accepted
  | declined
  | replaced
  | removed
deriving DecidableEq, Repr

/-- The `updatedProperties` payload of an Update record: a `Partial` of the
addition fields.  `none` means the property is absent from the partial; for
the two positions `some none` means the property is present and set to
`null`. -/
structure UpdatedProps where
  description : Option AnnotationDescription := none
  value : Option String := none
  startPosition : Option (Option Nat) := none
  startClosed : Option Bool := none
  endPosition : Option (Option Nat) := none
  endClosed : Option Bool := none
deriving DecidableEq, Repr

/-- One annotation record of the log (`Annotation` union of the source):
Addition, Removal and Update records share this shape; fields that a variant
does not carry stay at their defaults. -/
structure Annotation where
  id : String
  type : AnnotationType
  action : AnnotationAction
  description : Option AnnotationDescription := none
  userId : String := ""
  lamport : Nat := 0
  senderID : String := ""
  timestamp : Nat := 0
  value : Option String := none
  startPosition : Option Nat := none
  startClosed : Bool := false
  endPosition : Option Nat := none
  endClosed : Bool := false
  dependentOn : Option String := none
  updatedProperties : UpdatedProps := {}
deriving DecidableEq, Repr

/-- Lexicographic strict order on character lists, comparing code points.
This models JavaScript's string comparison (`<`, `>=`, `localeCompare`) in a
form the kernel can evaluate. -/
def lexLt : List Char → List Char → Bool
  | [], [] => false
  | [], _ :: _ => true
  | _ :: _, [] => false
  | x :: xs, y :: ys => x.toNat < y.toNat || (x.toNat = y.toNat && lexLt xs ys)

/-- Strict lexicographic order on strings. -/
def strLt (a b : String) : Bool :=
  lexLt a.data b.data

/-- String comparison `a >= b`, as the negation of the strict order. -/
def strGe (a b : String) : Bool :=
  !(strLt a b)

/-- The method `TrackChanges.wins`: whether record `a` wins over record `b`,
in Lamport order with `senderID` tiebreaker, or because `b` is `undefined`. -/
def wins (a : Annotation) (b : Option Annotation) : Bool :=
  match b with
  | none => true
  | some b =>
    if a.lamport > b.lamport then true
    else if a.lamport = b.lamport then
      if strGe a.senderID b.senderID then true else false
    else false

/-- Strict key order used by `CAnnotationLog.receiveCRDT`'s sort comparator:
first by `lamport`, ties by `senderID` (`localeCompare` modelled as the
lexicographic string order). -/
def recLt (a b : Annotation) : Bool :=
  a.lamport < b.lamport || (a.lamport = b.lamport && strLt a.senderID b.senderID)

/-- Insert a record into a list, after every record whose key is less than or
equal to its own (the position a stable sort gives a last-appended element). -/
def sortInsert (x : Annotation) : List Annotation → List Annotation
  | [] => [x]
  | y :: ys => if recLt x y then x :: y :: ys else y :: sortInsert x ys

/-- Stable sort by `(lamport, senderID)`: the model of
`[...existing, annotation].sort(comparator)` with JavaScript's stable
`Array.prototype.sort`. -/
def jsSort (l : List Annotation) : List Annotation :=
  l.foldl (fun acc x => sortInsert x acc) []

/-- `TrackChanges.applyUpdateOperations`: fold every Update of `updates` that
depends on `a` over `a`, merging each `updatedProperties` partial like a
JavaScript object spread. -/
def mergeProps (a : Annotation) (p : UpdatedProps) : Annotation :=
  { a with
    description := match p.description with | some d => some d | none => a.description
    value := match p.value with | some v => some v | none => a.value
    startPosition := match p.startPosition with | some sp => sp | none => a.startPosition
    startClosed := match p.startClosed with | some c => c | none => a.startClosed
    endPosition := match p.endPosition with | some ep => ep | none => a.endPosition
    endClosed := match p.endClosed with | some c => c | none => a.endClosed }

def applyUpdateOperations (a : Annotation) (updates : List Annotation) : Annotation :=
  (updates.filter (fun u => u.action = AnnotationAction.update)).foldl
    (fun acc u =>
      if u.dependentOn = some a.id then mergeProps acc u.updatedProperties else acc)
    a

/-!
Text CRDT model.  The class `CustomCValueList` is code of this repository
that is not under `src/` (only its import and call sites are), so its
primitives are modelled from the spec's external-interface section:
positions are opaque, dense, totally ordered identifiers of character slots;
slots survive deletion as tombstones.
-/

/-- One character slot of the text CRDT: its opaque position identifier, its
character, and whether it is currently present (not tombstoned). -/
structure Slot where
  pos : Nat
  char : Char
  present : Bool
deriving DecidableEq, Repr

/-- Search direction of `indexOfPosition` (`"none" | "left" | "right"`). -/
inductive SearchDir where
  | noneDir
  | left
  | right
deriving DecidableEq, Repr

/-- Modelled from the spec: `length()` of the Text CRDT, the number of
visible (present) characters. -/
def textLength (slots : List Slot) : Int :=
  (slots.filter (fun s => s.present)).length

/-- Modelled from the spec: `position_of(index)`; the position of the
`index`-th present character, undefined outside `[0, length)` (the repository
guards every other call site of `getPosition` to that domain). -/
def textGetPosition (slots : List Slot) (index : Int) : Option Nat :=
  if index < 0 then none
  else ((slots.filter (fun s => s.present)).get? index.toNat).map (fun s => s.pos)

/-- Whether some slot with position `p` exists (present or tombstoned). -/
def slotExists (slots : List Slot) (p : Nat) : Bool :=
  slots.any (fun s => s.pos = p)

/-- Whether the slot with position `p` is currently present. -/
def slotPresent (slots : List Slot) (p : Nat) : Bool :=
  slots.any (fun s => s.pos = p && s.present)

/-- Number of present slots occurring strictly before the slot with position
`p` in the slot order. -/
def presentCountBefore : List Slot → Nat → Nat
  | [], _ => 0
  | s :: rest, p =>
    if s.pos = p then 0
    else (if s.present then 1 else 0) + presentCountBefore rest p

/-- Index of the slot with position `p` in the underlying total order
(`slots.length` if unknown).  Used to compare two positions. -/
def ordIdx (slots : List Slot) (p : Nat) : Nat :=
  slots.findIdx (fun s => s.pos = p)

/-- Modelled from the spec: `index_of(position, bias)` of the Text CRDT.
For a present position, its visible index; for a tombstoned one, the next
visible index to the left (or `-1`), the next to the right (or `length`), or
`-1` for the exact search. -/
def textIndexOfPosition (slots : List Slot) (p : Nat) (dir : SearchDir) : Int :=
  if slotExists slots p then
    if slotPresent slots p then (presentCountBefore slots p : Int)
    else
      match dir with
      | SearchDir.left => (presentCountBefore slots p : Int) - 1
      | SearchDir.right => (presentCountBefore slots p : Int)
      | SearchDir.noneDir => -1
  else -1

/-- Modelled from the spec: `insert(index, chars[])` of the Text CRDT.
Splices the new slots immediately before the slot whose visible index is
`k` (after the tombstones preceding it), or at the very end. -/
def spliceSlots : List Slot → Nat → List Slot → List Slot
  | [], _, new => new
  | s :: rest, k, new =>
    if s.present then
      if k = 0 then new ++ s :: rest
      else s :: spliceSlots rest (k - 1) new
    else s :: spliceSlots rest k new

/-- Build fresh slots for the characters of `values`, with consecutive fresh
position identifiers starting at `base`. -/
def freshSlots (base : Nat) (values : List Char) : List Slot :=
  (values.enum).map (fun e => { pos := base + e.1, char := e.2, present := true })

/-- Modelled from the spec: `delete_range(pos_start, pos_end)` of the Text
CRDT; tombstones every slot lying between the two positions in the slot
order, both endpoints inclusive. -/
def deleteRangeSlots (slots : List Slot) (p1 p2 : Nat) : List Slot :=
  slots.map (fun s =>
    if ordIdx slots p1 ≤ ordIdx slots s.pos && ordIdx slots s.pos ≤ ordIdx slots p2 then
      { s with present := false }
    else s)

/-- The visible text, as the string of present characters. -/
def toStr (slots : List Slot) : String :=
  String.mk ((slots.filter (fun s => s.present)).map (fun s => s.char))

/-!
The engine's derived view: the peritext-style data-point list
(`LocalList<AnnotationDataPoint>`), and the engine state.
-/

/-- One entry of a data point: an addition record together with the
`endingHere` and `startingHere` flags. -/
structure Entry where
  ann : Annotation
  endingHere : Bool
  startingHere : Bool
deriving DecidableEq, Repr

/-- An `AnnotationDataPoint`: a JavaScript `Map` from annotation type to the
entries at this position, as an insertion-ordered association list. -/
abbrev DataPoint := List (AnnotationType × List Entry)

/-- Lookup in a data point (`data.get(type) || []`). -/
def dpGet (d : DataPoint) (t : AnnotationType) : List Entry :=
  match d.find? (fun b => b.1 = t) with
  | some b => b.2
  | none => []

/-- Whether the data point has a bucket for `t`. -/
def dpHas (d : DataPoint) (t : AnnotationType) : Bool :=
  d.any (fun b => b.1 = t)

/-- JavaScript `Map.set`: update the bucket in place, or append a new one. -/
def dpSet (d : DataPoint) (t : AnnotationType) (v : List Entry) : DataPoint :=
  if dpHas d t then d.map (fun b => if b.1 = t then (t, v) else b)
  else d ++ [(t, v)]

/-- JavaScript `Map.delete`. -/
def dpDelete (d : DataPoint) (t : AnnotationType) : DataPoint :=
  d.filter (fun b => !(b.1 = t))

/-- Flattened values of a data point (`Array.from(data.values()).flat()`). -/
def dpValuesFlat (d : DataPoint) : List Entry :=
  (d.map (fun b => b.2)).flatten

/-- Events emitted by the engine (`Insert`, `Delete`, `AnnotationAdded`,
`AnnotationRemoved`). -/
inductive EngineEvent where
  | textInsert (index : Int) (values : String)
  | textDelete (startPos endPos : Nat)
  | added (startIndex endIndex : Int) (a : Annotation)
  | removed (startIndex endIndex : Int) (reason : AnnotationRemovalReason)
      (a : Annotation) (author : String)
deriving DecidableEq, Repr

/-- The state of one `TrackChanges` replica: the text CRDT slots, the
annotation log grouped by change id, the local data-point list, the emitted
event stream, and the identity / freshness counters. -/
structure EngineState where
  slots : List Slot
  log : List (String × List Annotation)
  annList : List (Nat × DataPoint)
  events : List EngineEvent
  userId : String
  senderID : String
  lamport : Nat
  nextId : Nat
  nextPos : Nat
deriving DecidableEq, Repr

/-- Lookup of a change-id group in the log (`this.log.get(key)`). -/
def logGet (log : List (String × List Annotation)) (k : String) :
    Option (List Annotation) :=
  (log.find? (fun e => e.1 = k)).map (fun e => e.2)

/-- JavaScript `Map.set` on the log. -/
def logSet (log : List (String × List Annotation)) (k : String)
    (v : List Annotation) : List (String × List Annotation) :=
  if log.any (fun e => e.1 = k) then
    log.map (fun e => if e.1 = k then (k, v) else e)
  else log ++ [(k, v)]

/-- Index search on the data-point list (`LocalList.indexOfPosition`): for a
position that has a data point, its index in the order; otherwise the
neighbour index given by the search direction. -/
def annListIndexOfPosition (slots : List Slot) (al : List (Nat × DataPoint))
    (p : Nat) (dir : SearchDir) : Int :=
  if al.any (fun e => e.1 = p) then (al.findIdx (fun e => e.1 = p) : Int)
  else
    let before : Nat := (al.filter (fun e => ordIdx slots e.1 < ordIdx slots p)).length
    match dir with
    | SearchDir.left => (before : Int) - 1
    | SearchDir.right => (before : Int)
    | SearchDir.noneDir => -1

/-- Element of the data-point list at a given order index. -/
def annListGetIdx (al : List (Nat × DataPoint)) (i : Int) :
    Option (Nat × DataPoint) :=
  if i < 0 then none else al.get? i.toNat

/-- Insert a data point keeping the list sorted by the slot order. -/
def annListInsert (slots : List Slot) :
    List (Nat × DataPoint) → Nat → DataPoint → List (Nat × DataPoint)
  | [], p, dp => [(p, dp)]
  | (q, d) :: rest, p, dp =>
    if ordIdx slots p < ordIdx slots q then (p, dp) :: (q, d) :: rest
    else (q, d) :: annListInsert slots rest p dp

/-- Map `f` over the data points whose order index lies in `[lo, hi]`,
leaving the others unchanged (the `for` loops of `addAnnotation` and
`removeAnnotation`). -/
def mapIdxRange (al : List (Nat × DataPoint)) (lo hi : Int)
    (f : Int → DataPoint → DataPoint) : List (Nat × DataPoint) :=
  al.enum.map (fun e =>
    if lo ≤ (e.1 : Int) && (e.1 : Int) ≤ hi then (e.2.1, f (e.1 : Int) e.2.2)
    else e.2)

/-- The body of `createDataPoint`'s copy: the still-crossing entries of the
previous data point, regrouped by type, with `endingHere` reset (the source
keeps `startingHere` as it was). -/
def copyDP (prev : DataPoint) : DataPoint :=
  ((dpValuesFlat prev).filter (fun e => !e.endingHere)).foldl
    (fun acc e => dpSet acc e.ann.type (dpGet acc e.ann.type ++ [{ e with endingHere := false }]))
    []

/-- The method `TrackChanges.createDataPoint`: create a data point at `p` if
none exists, copying the still-applied entries from the nearest data point to
the left. -/
def createDataPoint (st : EngineState) (p : Nat) : EngineState :=
  if st.annList.any (fun e => e.1 = p) then st
  else
    let prevIndex := annListIndexOfPosition st.slots st.annList p SearchDir.left
    let dp : DataPoint :=
      if prevIndex = -1 then []
      else
        match annListGetIdx st.annList prevIndex with
        | some prev => copyDP prev.2
        | none => []
    { st with annList := annListInsert st.slots st.annList p dp }

/-- The method `TrackChanges.addAnnotation`: ensure data points at the two
endpoints, insert the record into every data point of the range with the
`startingHere` / `endingHere` flags, and emit `AnnotationAdded`. -/
def addAnnotation (st : EngineState) (a : Annotation) : EngineState :=
  let startAnchor : Nat :=
    match a.startPosition with
    | some sp => sp
    | none => (textGetPosition st.slots 0).getD 0
  let st1 := createDataPoint st startAnchor
  let st2 :=
    match a.endPosition with
    | some ep => createDataPoint st1 ep
    | none => st1
  let startIdx : Option Int :=
    a.startPosition.map (fun sp =>
      annListIndexOfPosition st2.slots st2.annList sp SearchDir.noneDir)
  let endIdx : Option Int :=
    a.endPosition.map (fun ep =>
      annListIndexOfPosition st2.slots st2.annList ep SearchDir.noneDir)
  let lo : Int := startIdx.getD 0
  let hi : Int := endIdx.getD ((st2.annList.length : Int) - 1)
  let al :=
    mapIdxRange st2.annList lo hi (fun i d =>
      dpSet d a.type
        (dpGet d a.type ++ [{ ann := a, endingHere := endIdx = some i, startingHere := startIdx = some i }]))
  let evStart : Int :=
    match a.startPosition with
    | some sp => textIndexOfPosition st2.slots sp SearchDir.left
    | none => 0
  let evEnd : Int :=
    match a.endPosition with
    | some ep => textIndexOfPosition st2.slots ep SearchDir.right
    | none => textLength st2.slots
  { st2 with annList := al, events := st2.events ++ [EngineEvent.added evStart evEnd a] }

/-- The method `TrackChanges.removeAnnotation`: drop the record's entries
from every data point of its range and emit `AnnotationRemoved`. -/
def removeAnnotation (st : EngineState) (a : Annotation)
    (reason : AnnotationRemovalReason) (author : String) : EngineState :=
  let startIdx : Option Int :=
    a.startPosition.map (fun sp =>
      annListIndexOfPosition st.slots st.annList sp SearchDir.left)
  let endIdx : Option Int :=
    a.endPosition.map (fun ep =>
      annListIndexOfPosition st.slots st.annList ep SearchDir.noneDir)
  let lo : Int := startIdx.getD 0
  let hi : Int := endIdx.getD ((st.annList.length : Int) - 1)
  let al :=
    mapIdxRange st.annList lo hi (fun _ d =>
      let kept := (dpGet d a.type).filter (fun e => !(e.ann.id = a.id))
      if kept.length > 0 then dpSet d a.type kept else dpDelete d a.type)
  let evStart : Int :=
    match a.startPosition with
    | some sp => textIndexOfPosition st.slots sp SearchDir.left
    | none => 0
  let evEnd : Int :=
    match a.endPosition with
    | some ep => textIndexOfPosition st.slots ep SearchDir.right
    | none => textLength st.slots
  { st with
    annList := al
    events := st.events ++ [EngineEvent.removed evStart evEnd reason a author] }

/-- The method `TrackChanges.getAnnotationsInternal`: the currently applied
annotations at a text position, read from the nearest data point (searching
right when the position's text index is 0, left otherwise) and filtered by
the endpoint flags. -/
def getAnnotationsInternal (st : EngineState) (p : Nat) : Option (List Entry) :=
  let index := textIndexOfPosition st.slots p SearchDir.left
  let dataIndex :=
    annListIndexOfPosition st.slots st.annList p
      (if index = 0 then SearchDir.right else SearchDir.left)
  if dataIndex = -1 || (index = 0 && dataIndex = (st.annList.length : Int)) then none
  else
    match annListGetIdx st.annList dataIndex with
    | none => none
    | some (dataPos, data) =>
      let kept := (dpValuesFlat data).filter (fun s =>
        (!(dataPos = p) && !s.endingHere) ||
        (!s.endingHere && !s.startingHere) ||
        (dataPos = p && s.startingHere && s.ann.startClosed && !s.endingHere) ||
        (s.endingHere && s.ann.endClosed && dataPos = p))
      if kept.length > 0 then some kept else none

/-- The method `TrackChanges.processAnnotation`: dispatch a newly delivered
record on its action, with the guards and the effective-annotation folds of
the source. -/
def processAnnotation (st : EngineState) (r : Annotation) : EngineState :=
  if r.action = AnnotationAction.removal then
    match r.dependentOn with
    | none => st
    | some dep =>
      match logGet st.log dep with
      | none => st
      | some existing =>
        if existing.length = 0 then st
        else if !((existing.getLast?.map (fun x => x.action)).getD AnnotationAction.removal
            = AnnotationAction.removal) then st
        else
          match existing.find? (fun a => a.id = dep) with
          | none => st
          | some additionRec =>
            let reason :=
              if r.description = some AnnotationDescription.declineSuggestion then
                AnnotationRemovalReason.declined
              else if r.description = some AnnotationDescription.acceptSuggestion then
                AnnotationRemovalReason.accepted
              else AnnotationRemovalReason.removed
            removeAnnotation st (applyUpdateOperations additionRec existing)
              reason r.userId
  else if r.action = AnnotationAction.update then
    match r.dependentOn with
    | none => st
    | some dep =>
      match logGet st.log dep with
      | none => st
      | some existing =>
        if existing.length = 0 then st
        else if (existing.getLast?.map (fun x => x.action)).getD AnnotationAction.update
            = AnnotationAction.removal then st
        else
          match existing.find? (fun a => a.id = dep) with
          | none => st
          | some additionRec =>
            let updated := applyUpdateOperations additionRec existing
            let relevant := existing.filter (fun a => !(a.id = r.id))
            let prev := applyUpdateOperations additionRec relevant
            let st1 := removeAnnotation st prev AnnotationRemovalReason.replaced prev.userId
            addAnnotation st1 updated
  else
    match logGet st.log r.id with
    | none => st
    | some existing =>
      if existing.length = 0 then st
      else if (existing.getLast?.map (fun x => x.action)).getD AnnotationAction.addition
          = AnnotationAction.removal then st
      else addAnnotation st (applyUpdateOperations r existing)

/-- Delivery of one stamped record to a replica: `CAnnotationLog.receiveCRDT`
(insert into the sorted per-change-id group) followed by the engine's
processing of the emitted `Add` event. -/
def deliver (st : EngineState) (r : Annotation) : EngineState :=
  let key := if r.action = AnnotationAction.addition then r.id else r.dependentOn.getD r.id
  let g := (logGet st.log key).getD []
  processAnnotation { st with log := logSet st.log key (jsSort (g ++ [r])) } r

/-- The fresh record id the model's `uuidv4()` returns in state `st`. -/
def freshId (st : EngineState) : String :=
  "uuid-" ++ toString st.nextId

/-- A local `annotationLog.add(...)` call: stamp the partial record with a
fresh id and the transport's `lamport` / `senderID`, then deliver it locally
(the local echo of `sendCRDT`). -/
def localAdd (st : EngineState) (r0 : Annotation) : EngineState :=
  let r := { r0 with
    id := freshId st
    lamport := st.lamport + 1
    senderID := st.senderID
    timestamp := 0 }
  deliver { st with nextId := st.nextId + 1, lamport := st.lamport + 1 } r

/-!
Public operations of `TrackChanges` and the snapshot model of
`CAnnotationLog`.
-/

/-- A record skeleton with every optional field at its default; call sites
override exactly the fields the source's object literals carry. -/
def blankRec : Annotation :=
  { id := "", type := AnnotationType.suggestion, action := AnnotationAction.addition }

/-- Modelled from the spec: the Text CRDT's `insert(index, chars[])` plus the
engine's `Insert` event handler.  New slots get consecutive fresh positions
and are spliced in before the slot whose visible index is `index`. -/
def textInsertOp (st : EngineState) (index : Int) (values : String) : EngineState :=
  { st with
    slots := spliceSlots st.slots index.toNat (freshSlots st.nextPos values.data)
    nextPos := st.nextPos + values.length
    events := st.events ++ [EngineEvent.textInsert index values] }

/-- Modelled from the spec: the Text CRDT's `delete_range` plus the engine's
`Delete` event handler. -/
def textDeleteRangeOp (st : EngineState) (p1 p2 : Nat) : EngineState :=
  { st with
    slots := deleteRangeSlots st.slots p1 p2
    events := st.events ++ [EngineEvent.textDelete p1 p2] }

/-- The Update record the `insert` method appends for one existing
insert-suggestion entry at the insertion point (shrinking another user's
range, or a direct edit's range), with the edge tests of the source. -/
def appendEdgeUpdate (st : EngineState) (index : Int) (values : String)
    (a : Annotation) : EngineState :=
  let isOnLeftEdge : Bool :=
    match a.startPosition with
    | some sp => textIndexOfPosition st.slots sp SearchDir.left + 1 = index
    | none => false
  let isOnRightEdge : Bool :=
    match a.endPosition with
    | some ep => textIndexOfPosition st.slots ep SearchDir.right - 1 = index
    | none => false
  let isOnAbsoluteStart : Bool := a.startPosition = none && index = 0
  let isOnAbsoluteEnd : Bool := a.endPosition = none && index = textLength st.slots - 1
  localAdd st { blankRec with
    dependentOn := some a.id
    type := AnnotationType.suggestion
    action := AnnotationAction.update
    updatedProperties := {
      startPosition :=
        if isOnLeftEdge || isOnAbsoluteStart then
          some (if index ≥ 0 then textGetPosition st.slots index else none)
        else none
      endPosition :=
        if isOnRightEdge || isOnAbsoluteEnd then
          some (if index + values.length - 1 < textLength st.slots then
            textGetPosition st.slots (index + values.length - 1) else none)
        else none } }

/-- The method `TrackChanges.insert`: insert characters, shrink foreign or
direct-edited insert suggestions at the insertion point, and append a new
open-ended InsertSuggestion unless a live same-user one already covers the
first inserted character. -/
def insertOp (st : EngineState) (index : Int) (values : String)
    (isSuggestion : Bool) : EngineState :=
  if values.length = 0 then st
  else
    let st1 := textInsertOp st index values
    match textGetPosition st1.slots index with
    | none => st1
    | some startPos =>
      let existing := getAnnotationsInternal st1 startPos
      let st2 :=
        match existing with
        | none => st1
        | some entries =>
          (entries.filter (fun s =>
              (isSuggestion && s.ann.description = some AnnotationDescription.insertSuggestion
                && !(s.ann.userId = st1.userId)) ||
              (!isSuggestion && s.ann.description = some AnnotationDescription.insertSuggestion))).foldl
            (fun acc s => appendEdgeUpdate acc index values s.ann) st1
      if isSuggestion &&
          !(match existing with
            | some entries =>
              (entries.filter (fun s =>
                s.ann.description = some AnnotationDescription.insertSuggestion &&
                s.ann.userId = st1.userId)).length > 0
            | none => false) then
        let endPos : Option Nat :=
          if index + values.length = textLength st2.slots then none
          else textGetPosition st2.slots (index + values.length)
        let actualStartPos : Option Nat :=
          if index - 1 ≥ 0 then textGetPosition st2.slots (index - 1) else none
        localAdd st2 { blankRec with
          type := AnnotationType.suggestion
          action := AnnotationAction.addition
          description := some AnnotationDescription.insertSuggestion
          startPosition := actualStartPos
          endPosition := endPos
          endClosed := false
          startClosed := false
          userId := st2.userId }
      else st2

/-- The method `TrackChanges.acceptSuggestion`: append a
Removal(AcceptSuggestion) and, when the update-folded addition is a
DeleteSuggestion, delete its covered character range from the text. -/
def acceptSuggestion (st : EngineState) (id : String) : EngineState :=
  let history := logGet st.log id
  let found := (history.getD []).find? (fun s => s.action = AnnotationAction.addition)
  let existing := found.map (fun f => applyUpdateOperations f (history.getD []))
  let st2 := localAdd st { blankRec with
    type := AnnotationType.suggestion
    description := some AnnotationDescription.acceptSuggestion
    action := AnnotationAction.removal
    userId := st.userId
    dependentOn := some id }
  match existing with
  | some ex =>
    if ex.description = some AnnotationDescription.deleteSuggestion then
      let sp :=
        match ex.startPosition with
        | some s => s
        | none => (textGetPosition st2.slots 0).getD 0
      let ep :=
        match ex.endPosition with
        | some e => e
        | none => (textGetPosition st2.slots (textLength st2.slots - 1)).getD 0
      textDeleteRangeOp st2 sp ep
    else st2
  | none => st2

/-- The visible index right after an InsertSuggestion's start anchor, as
`declineSuggestion` computes it: `indexOfPosition(start, "left") + 1`, with
`-1 + 1` for an open start. -/
def declineLoIdx (slots : List Slot) (ex : Annotation) : Int :=
  (match ex.startPosition with
   | some s => textIndexOfPosition slots s SearchDir.left
   | none => -1) + 1

/-- The visible index right before an InsertSuggestion's end anchor, as
`declineSuggestion` computes it: `indexOfPosition(end, "right") - 1`, with
`length - 1` for an open end. -/
def declineHiIdx (slots : List Slot) (ex : Annotation) : Int :=
  (match ex.endPosition with
   | some e => textIndexOfPosition slots e SearchDir.right
   | none => textLength slots) - 1

/-- The method `TrackChanges.declineSuggestion`: append a
Removal(DeclineSuggestion) and, when the update-folded addition is an
InsertSuggestion, delete the visible characters strictly between its
anchors from the text. -/
def declineSuggestion (st : EngineState) (id : String) : EngineState :=
  let history := logGet st.log id
  let found := (history.getD []).find? (fun s => s.action = AnnotationAction.addition)
  let existing := found.map (fun f => applyUpdateOperations f (history.getD []))
  let st2 := localAdd st { blankRec with
    type := AnnotationType.suggestion
    action := AnnotationAction.removal
    description := some AnnotationDescription.declineSuggestion
    userId := st.userId
    dependentOn := some id }
  match existing with
  | some ex =>
    if ex.description = some AnnotationDescription.insertSuggestion then
      let startPos := (textGetPosition st2.slots (declineLoIdx st2.slots ex)).getD 0
      let endPos := (textGetPosition st2.slots (declineHiIdx st2.slots ex)).getD 0
      textDeleteRangeOp st2 startPos endPos
    else st2
  | none => st2

/-- Error outcomes of `addComment`: the three explicit range validations of
the source, and the out-of-range position lookup that a passing validation
can still run into. -/
inductive CommentError where
  | invalidStart
  | invalidEnd
  | invalidOrder
  | positionOutOfRange
deriving DecidableEq, Repr

deriving instance DecidableEq for Except

/-- The method `TrackChanges.addComment`: validate the range, then append an
Addition(AddComment) with both ends closed over the two positions. -/
def addComment (st : EngineState) (startIndex endIndex : Int)
    (comment : String) : Except CommentError EngineState :=
  if startIndex < 0 || startIndex ≥ textLength st.slots then
    Except.error CommentError.invalidStart
  else if endIndex < 0 || endIndex > textLength st.slots then
    Except.error CommentError.invalidEnd
  else if endIndex < startIndex then
    Except.error CommentError.invalidOrder
  else
    match textGetPosition st.slots startIndex, textGetPosition st.slots endIndex with
    | some ps, some pe =>
      Except.ok (localAdd st { blankRec with
        type := AnnotationType.comment
        action := AnnotationAction.addition
        description := some AnnotationDescription.addComment
        endClosed := true
        startClosed := true
        userId := st.userId
        startPosition := some ps
        endPosition := some pe
        value := some comment })
    | _, _ => Except.error CommentError.positionOutOfRange

/-- The method `TrackChanges.getActiveAnnotations`: one entry per annotation
id, deduplicated across the data points in order. -/
def getActiveAnnotations (st : EngineState) : List Entry :=
  st.annList.foldl
    (fun acc e =>
      (dpValuesFlat e.2).foldl
        (fun acc2 en =>
          if en.ann.action = AnnotationAction.addition &&
              !(acc2.any (fun x => x.ann.id = en.ann.id)) then
            acc2 ++ [en]
          else acc2)
        acc)
    []

/-- The saved state of `CAnnotationLog.saveCRDT`: parallel arrays of change
ids, group lengths, records, and Lamport stamps. -/
structure SavedState where
  changeIds : List String
  lengths : List Nat
  records : List Annotation
  lamports : List Nat
deriving DecidableEq, Repr

/-- The method `CAnnotationLog.saveCRDT`. -/
def saveLog (log : List (String × List Annotation)) : SavedState :=
  { changeIds := log.map (fun e => e.1)
    lengths := log.map (fun e => e.2.length)
    records := (log.map (fun e => e.2)).flatten
    lamports := ((log.map (fun e => e.2)).flatten).map (fun a => a.lamport) }

/-- The Lamport stamp of the last record already held for a change id: `-1`
when no group is held.  (A held-but-empty group would make the source throw;
it is modelled as `-1` and excluded by the theorems' invariants.) -/
def lastLamportOf (g : List Annotation) : Int :=
  match g.getLast? with
  | some a => (a.lamport : Int)
  | none => -1

/-- The loop of `CAnnotationLog.loadCRDT`: walk the snapshot groups, apply
per change id exactly the records whose Lamport stamp is strictly greater
than the last one held, overriding `lamport` and `senderID` as the source
does, and return the new log together with the records whose `Add` events
were emitted. -/
def loadGroups : List String → List Nat → List Annotation → List Nat →
    List (String × List Annotation) →
    List (String × List Annotation) × List Annotation
  | [], _, _, _, log => (log, [])
  | cid :: cids, lens, anns, lams, log =>
    let len := lens.headD 0
    let g0 := (logGet log cid).getD []
    let lastLamport := lastLamportOf g0
    let taken := (anns.take len).zip (lams.take len)
    let applied := (taken.filter (fun e => (e.2 : Int) > lastLamport)).map
      (fun e => { e.1 with lamport := e.2, senderID := cid })
    let log1 := logSet log cid (g0 ++ applied)
    let rest := loadGroups cids lens.tail (anns.drop len) (lams.drop len) log1
    (rest.1, applied ++ rest.2)

/-- The method `CAnnotationLog.loadCRDT` on a decoded snapshot. -/
def loadLog (log : List (String × List Annotation)) (s : SavedState) :
    List (String × List Annotation) × List Annotation :=
  loadGroups s.changeIds s.lengths s.records s.lamports log

/-- Whether position `q` lies strictly inside the (possibly open) position
range `(spOpt, epOpt)` in the slot order: strictly after the start anchor
(anywhere, for an open start) and strictly before the end anchor (anywhere,
for an open end). -/
def strictlyInside (slots : List Slot) (spOpt epOpt : Option Nat) (q : Nat) : Bool :=
  (match spOpt with
   | some sp => ordIdx slots sp < ordIdx slots q
   | none => true) &&
  (match epOpt with
   | some ep => ordIdx slots q < ordIdx slots ep
   | none => true)

/-- The per-change-id group as it stands right after `receiveCRDT` has
inserted record `r` under change id `d`. -/
def groupAfterInsert (st : EngineState) (r : Annotation) (d : String) :
    List Annotation :=
  jsSort (((logGet st.log d).getD []) ++ [r])

/-!
Concrete replicas and records used by the witnesses and counterexamples.
-/

/-- A fresh replica of user `u1` whose text CRDT already holds `slots`. -/
def initState (slots : List Slot) : EngineState :=
  { slots := slots, log := [], annList := [], events := [], userId := "u1",
    senderID := "sx", lamport := 0, nextId := 0, nextPos := 100 }

/-- Four present characters `abcd` at positions 0..3. -/
def textABCD : List Slot :=
  [⟨0, 'a', true⟩, ⟨1, 'b', true⟩, ⟨2, 'c', true⟩, ⟨3, 'd', true⟩]

/-- Three present characters `abc` at positions 0..2. -/
def textABC : List Slot :=
  [⟨0, 'a', true⟩, ⟨1, 'b', true⟩, ⟨2, 'c', true⟩]

/-- Two present characters `ab` at positions 0..1. -/
def textAB : List Slot :=
  [⟨0, 'a', true⟩, ⟨1, 'b', true⟩]

/-- An open InsertSuggestion by `u1` over the positions strictly between 0
and 3 (concurrent with `convRecB`: same Lamport stamp, different sender). -/
def convRecA : Annotation := { blankRec with
  id := "A"
  type := AnnotationType.suggestion
  action := AnnotationAction.addition
  description := some AnnotationDescription.insertSuggestion
  userId := "u1"
  lamport := 1
  senderID := "r1"
  startPosition := some 0
  endPosition := some 3
  startClosed := false
  endClosed := false }

/-- A closed comment by `u2` over positions 1..2, concurrent with
`convRecA`. -/
def convRecB : Annotation := { blankRec with
  id := "B"
  type := AnnotationType.comment
  action := AnnotationAction.addition
  description := some AnnotationDescription.addComment
  userId := "u2"
  lamport := 1
  senderID := "r2"
  startPosition := some 1
  endPosition := some 2
  startClosed := true
  endClosed := true
  value := some "why" }

/-- Replica that processed the records in the order `A, B`. -/
def convStAB : EngineState := deliver (deliver (initState textABCD) convRecA) convRecB

/-- Replica that processed the same two records in the order `B, A`. -/
def convStBA : EngineState := deliver (deliver (initState textABCD) convRecB) convRecA

/-- Replica holding `abc` with the closed comment `B` over positions 1..2
delivered. -/
def endpointSt : EngineState :=
  deliver (initState textABC)
    { convRecB with startPosition := some 1, endPosition := some 2 }

/-- A closed DeleteSuggestion by `u1` over positions 0..1 of `textAB`. -/
def delRecD : Annotation := { blankRec with
  id := "D"
  type := AnnotationType.suggestion
  action := AnnotationAction.addition
  description := some AnnotationDescription.deleteSuggestion
  userId := "u1"
  lamport := 1
  senderID := "r1"
  startPosition := some 0
  endPosition := some 1
  startClosed := true
  endClosed := true }

/-- Removal accepting `D`, stamped later than `delRecR2`. -/
def delRecR1 : Annotation := { blankRec with
  id := "R1"
  type := AnnotationType.suggestion
  action := AnnotationAction.removal
  description := some AnnotationDescription.acceptSuggestion
  userId := "u2"
  lamport := 3
  senderID := "r2"
  dependentOn := some "D" }

/-- Removal declining `D`, stamped earlier than `delRecR1`: stale on any
replica that already holds `delRecR1`. -/
def delRecR2 : Annotation := { blankRec with
  id := "R2"
  type := AnnotationType.suggestion
  action := AnnotationAction.removal
  description := some AnnotationDescription.declineSuggestion
  userId := "u3"
  lamport := 2
  senderID := "r3"
  dependentOn := some "D" }

/-- Replica holding `ab`, the delete suggestion `D` and its accepting
removal `R1`. -/
def staleSt : EngineState := deliver (deliver (initState textAB) delRecD) delRecR1

/-- Replica holding `ab` and the delete suggestion `D`. -/
def delSt : EngineState := deliver (initState textAB) delRecD

/-- Empty replica of user `u1`. -/
def emptySt : EngineState := initState []

/-- State after `insert(0, "ab", true)` on the empty replica: one live
open-ended InsertSuggestion `uuid-0` by `u1`. -/
def absorbSt1 : EngineState := insertOp emptySt 0 "ab" true

/-- State after the adjacent `insert(2, "cd", true)` on `absorbSt1`. -/
def absorbSt2 : EngineState := insertOp absorbSt1 2 "cd" true

/-- The entries `getAnnotationsInternal` reports at the first character the
second insert of the absorption scenario adds. -/
def absorbEntries : List Entry :=
  (getAnnotationsInternal (textInsertOp absorbSt1 2 "cd") 2).getD []

/-- State after `insert(0, "ab", true)` followed by the direct (non
suggestion) `insert(1, "X", false)`: text `aXb`, whose `X` was never part of
the suggestion's inserted characters. -/
def lostIntentSt : EngineState := insertOp (insertOp emptySt 0 "ab" true) 1 "X" false

/-- Records sharing the `(lamport, senderID)` stamp of one transaction but
with different ids. -/
def winsEqA : Annotation := { blankRec with id := "e1", lamport := 4, senderID := "s" }

def winsEqB : Annotation := { blankRec with id := "e2", lamport := 4, senderID := "s" }

/-- Two records with distinct stamps, for the totality witness. -/
def winsW1 : Annotation := { blankRec with id := "w1", lamport := 2, senderID := "p" }

def winsW2 : Annotation := { blankRec with id := "w2", lamport := 1, senderID := "q" }

/-- The removal record that `acceptSuggestion` / `declineSuggestion` append
in state `st`, after the transport stamp. -/
def stampedRemoval (st : EngineState) (desc : AnnotationDescription)
    (id : String) : Annotation :=
  { blankRec with
    id := freshId st
    type := AnnotationType.suggestion
    description := some desc
    action := AnnotationAction.removal
    userId := st.userId
    lamport := st.lamport + 1
    senderID := st.senderID
    timestamp := 0
    dependentOn := some id }

/-- The comment record that a successful `addComment` appends in state `st`,
after the transport stamp. -/
def stampedComment (st : EngineState) (ps pe : Nat) (c : String) : Annotation :=
  { blankRec with
    id := freshId st
    type := AnnotationType.comment
    action := AnnotationAction.addition
    description := some AnnotationDescription.addComment
    endClosed := true
    startClosed := true
    userId := st.userId
    lamport := st.lamport + 1
    senderID := st.senderID
    timestamp := 0
    startPosition := some ps
    endPosition := some pe
    value := some c }

/-!
Theorems.  Helper lemmas first, then one theorem per claim (with its witness
or counterexample where required).
-/

theorem lexLt_irrefl (l : List Char) : lexLt l l = false := by
  induction l with
  | nil => rfl
  | cons x xs ih => simp [lexLt, ih]

theorem lexLt_asymm : ∀ {a b : List Char}, lexLt a b = true → lexLt b a = false
  | [], [], h => by simp [lexLt] at h
  | [], _ :: _, _ => rfl
  | _ :: _, [], h => by simp [lexLt] at h
  | x :: xs, y :: ys, h => by
    simp only [lexLt, Bool.or_eq_true, Bool.and_eq_true, decide_eq_true_eq] at h ⊢
    rcases h with h | ⟨h1, h2⟩
    · simp only [Bool.or_eq_false_iff, Bool.and_eq_false_iff, decide_eq_false_iff_not]
      constructor
      · omega
      · left; omega
    · simp only [Bool.or_eq_false_iff, Bool.and_eq_false_iff, decide_eq_false_iff_not]
      constructor
      · omega
      · right; exact lexLt_asymm h2

theorem lexLt_eq_of_both_false :
    ∀ {a b : List Char}, lexLt a b = false → lexLt b a = false → a = b
  | [], [], _, _ => rfl
  | [], _ :: _, h1, _ => by simp [lexLt] at h1
  | _ :: _, [], _, h2 => by simp [lexLt] at h2
  | x :: xs, y :: ys, h1, h2 => by
    simp only [lexLt, Bool.or_eq_false_iff, Bool.and_eq_false_iff,
      decide_eq_false_iff_not] at h1 h2
    have hxy : x.toNat = y.toNat := by omega
    have hx : x = y := Char.eq_of_val_eq (UInt32.ext hxy)
    have hxs : xs = ys := by
      apply lexLt_eq_of_both_false
      · rcases h1.2 with h | h
        · omega
        · exact h
      · rcases h2.2 with h | h
        · omega
        · exact h
    rw [hx, hxs]

theorem strLt_eq_of_both_false {a b : String} (h1 : strLt a b = false)
    (h2 : strLt b a = false) : a = b := by
  cases a; cases b
  exact congrArg String.mk (lexLt_eq_of_both_false h1 h2)

/-- Claim C7 (amended): for records with distinct `(lamport, senderID)`
stamps exactly one direction of `wins` holds; for records with equal stamps
`wins` holds in both directions — whether or not they are the same record. -/
theorem wins_totality (a b : Annotation) :
    ((a.lamport, a.senderID) ≠ (b.lamport, b.senderID) →
      (wins a (some b) = true ↔ wins b (some a) = false)) ∧
    ((a.lamport, a.senderID) = (b.lamport, b.senderID) →
      wins a (some b) = true ∧ wins b (some a) = true) := by
  constructor
  · intro hne
    rcases Nat.lt_trichotomy a.lamport b.lamport with h | h | h
    · have h1 : wins a (some b) = false := by
        simp [wins, h, Nat.lt_irrefl, Nat.ne_of_lt h, not_lt_of_gt h]
      have h2 : wins b (some a) = true := by
        simp [wins, h]
      simp [h1, h2]
    · have hs : ¬ a.senderID = b.senderID := by
        intro hcon
        exact hne (by rw [h, hcon])
      have h1 : wins a (some b) = strGe a.senderID b.senderID := by
        simp [wins, h]
      have h2 : wins b (some a) = strGe b.senderID a.senderID := by
        simp [wins, h]
      rw [h1, h2]
      unfold strGe
      cases hab : strLt a.senderID b.senderID with
      | true =>
        have hba : strLt b.senderID a.senderID = false := lexLt_asymm hab
        simp [hab, hba]
      | false =>
        cases hba : strLt b.senderID a.senderID with
        | true => simp [hab, hba]
        | false => exact absurd (strLt_eq_of_both_false hab hba) hs
    · have h1 : wins a (some b) = true := by
        simp [wins, h]
      have h2 : wins b (some a) = false := by
        simp [wins, h, Nat.lt_irrefl, Nat.ne_of_lt h, not_lt_of_gt h]
      simp [h1, h2]
  · intro heq
    have h1 : a.lamport = b.lamport := congrArg Prod.fst heq
    have h2 : a.senderID = b.senderID := congrArg Prod.snd heq
    constructor
    · simp [wins, h1, h2, strGe, strLt, lexLt_irrefl]
    · simp [wins, h1.symm, h2.symm, strGe, strLt, lexLt_irrefl]

/-- Claim C7, counterexample to the claim as stated: two distinct records
carrying the same `(lamport, senderID)` stamp (as records of one transaction
do) win each other in both directions, so mutual `wins` is not restricted to
a record compared with itself. -/
theorem wins_both_directions_counterexample :
    winsEqA ≠ winsEqB ∧ wins winsEqA (some winsEqB) = true ∧
      wins winsEqB (some winsEqA) = true := by decide

/-- Claim C7, witness: the totality theorem applied to two concrete records
with distinct stamps. -/
theorem wins_totality_witness :
    (winsW1.lamport, winsW1.senderID) ≠ (winsW2.lamport, winsW2.senderID) ∧
    (wins winsW1 (some winsW2) = true ↔ wins winsW2 (some winsW1) = false) :=
  ⟨by decide, (wins_totality winsW1 winsW2).1 (by decide)⟩

/-- Claim C9: inserting the empty string is a complete no-op — the text, the
annotation log, the derived view and the event stream are all unchanged, for
every index and either value of `isSuggestion`. -/
theorem insert_empty_noop (st : EngineState) (index : Int) (isSuggestion : Bool) :
    insertOp st index "" isSuggestion = st := rfl

/-- Claim C1, failing input: the replicas `convStAB` and `convStBA` deliver
the same two concurrent records (equal Lamport stamps, different senders, so
both orders are causally consistent).  Their per-change-id log groups agree,
but `annotations_at(position 1)` disagrees: the order-dependent
`startingHere` flag copied by `createDataPoint` makes one replica drop the
open insert suggestion `A` at position 1 and the other report it. -/
theorem convergence_failure :
    logGet convStAB.log "A" = logGet convStBA.log "A" ∧
    logGet convStAB.log "B" = logGet convStBA.log "B" ∧
    toStr convStAB.slots = toStr convStBA.slots ∧
    getAnnotationsInternal convStAB 1 ≠ getAnnotationsInternal convStBA 1 := by decide

/-- Claim C2, failing input: on the replica `endpointSt` the live comment
`B` has a closed range starting at position 1, and position 0 is not inside
that range; yet `annotations_at(position 0)` reports `B`, because the query
searches the nearest data point to the right when the queried text index
is 0. -/
theorem endpoint_query_failure :
    convRecB.startPosition = some 1 ∧ convRecB.startClosed = true ∧
    strictlyInside endpointSt.slots (some 1) (some 2) 0 = false ∧
    ordIdx endpointSt.slots 0 < ordIdx endpointSt.slots 1 ∧
    (getAnnotationsInternal endpointSt 0).map (fun l => l.map (fun e => e.ann.id))
      = some ["B"] := by decide

/-- Claim C4, counterexample: delivering the stale removal `delRecR2` (its
history's last record is already the newer removal `delRecR1`) leaves the
derived view unchanged but emits a fresh `AnnotationRemoved` event, so the
emitted-event stream is not unchanged. -/
theorem stale_removal_event_counterexample :
    (deliver staleSt delRecR2).annList = staleSt.annList ∧
    (deliver staleSt delRecR2).events ≠ staleSt.events := by decide

/-- Claim C5, counterexample: after `insert(0, "ab", true)` the adjacent
`insert(2, "cd", true)` by the same user appends no record at all — the log
is unchanged and contains no Update record — rather than appending an Update
extending the suggestion's endpoint. -/
theorem adjacent_insert_no_update_counterexample :
    absorbSt2.log = absorbSt1.log ∧
    absorbSt2.log.all (fun g => g.2.all (fun r =>
      !(r.action = AnnotationAction.update))) = true := by decide

/-- Claim C3, counterexample: on `lostIntentSt` the InsertSuggestion
`uuid-0` inserted exactly `ab`, and `X` was inserted afterwards as direct
(non-suggestion) text inside the suggestion's open range; declining the
suggestion deletes all of `aXb`, not just the characters it inserted. -/
theorem decline_insert_foreign_chars_counterexample :
    toStr lostIntentSt.slots = "aXb" ∧
    toStr (declineSuggestion lostIntentSt "uuid-0").slots = "" := by decide

/-- Claim C6, counterexample: on a two-character document the validation of
`addComment(0, 2, ...)` passes (`end_index = length` is allowed), but the
call then fails in the position lookup instead of succeeding. -/
theorem addComment_at_length_counterexample :
    textLength (initState textAB).slots = 2 ∧
    addComment (initState textAB) 0 2 "note"
      = Except.error CommentError.positionOutOfRange := by decide

theorem createDataPoint_slots (st : EngineState) (p : Nat) :
    (createDataPoint st p).slots = st.slots := by
  unfold createDataPoint
  split <;> rfl

theorem createDataPoint_log (st : EngineState) (p : Nat) :
    (createDataPoint st p).log = st.log := by
  unfold createDataPoint
  split <;> rfl

theorem createDataPoint_events (st : EngineState) (p : Nat) :
    (createDataPoint st p).events = st.events := by
  unfold createDataPoint
  split <;> rfl

theorem addAnnotation_slots (st : EngineState) (a : Annotation) :
    ( addAnnotation st a).slots = st.slots := by
  unfold addAnnotation
  cases a.endPosition <;> simp [createDataPoint_slots]

theorem addAnnotation_log (st : EngineState) (a : Annotation) :
    ( addAnnotation st a).log = st.log := by
  unfold addAnnotation
  cases a.endPosition <;> simp [createDataPoint_log]

theorem removeAnnotation_slots (st : EngineState) (a : Annotation)
    (reason : AnnotationRemovalReason) (author : String) :
    ( removeAnnotation st a reason author).slots = st.slots := rfl

theorem removeAnnotation_log (st : EngineState) (a : Annotation)
    (reason : AnnotationRemovalReason) (author : String) :
    ( removeAnnotation st a reason author).log = st.log := rfl

theorem processAnnotation_slots (st : EngineState) (r : Annotation) :
    ( processAnnotation st r).slots = st.slots := by
  unfold processAnnotation
  repeat' split
  all_goals simp [addAnnotation_slots, removeAnnotation_slots]

theorem processAnnotation_log (st : EngineState) (r : Annotation) :
    ( processAnnotation st r).log = st.log := by
  unfold processAnnotation
  repeat' split
  all_goals simp [addAnnotation_log, removeAnnotation_log]

theorem deliver_slots (st : EngineState) (r : Annotation) :
    (deliver st r).slots = st.slots := by
  unfold deliver
  rw [processAnnotation_slots]

theorem localAdd_slots (st : EngineState) (r0 : Annotation) :
    (localAdd st r0).slots = st.slots := by
  unfold localAdd
  rw [deliver_slots]

theorem find?_map_set {log : List (String × List Annotation)} {k : String}
    {v : List Annotation} (hany : log.any (fun e => e.1 = k) = true) :
    (log.map (fun e => if e.1 = k then (k, v) else e)).find? (fun e => e.1 = k)
      = some (k, v) := by
  induction log with
  | nil => simp at hany
  | cons e rest ih =>
    by_cases he : e.1 = k
    · rw [List.map_cons, if_pos he, List.find?_cons_of_pos]
      simp
    · rw [List.map_cons, if_neg he, List.find?_cons_of_neg]
      · apply ih
        simpa [List.any_cons, he] using hany
      · simpa using he

theorem find?_append_new {log : List (String × List Annotation)} {k : String}
    {v : List Annotation} (hnone : log.any (fun e => e.1 = k) = false) :
    (log ++ [(k, v)]).find? (fun e => e.1 = k) = some (k, v) := by
  induction log with
  | nil =>
    rw [List.nil_append, List.find?_cons_of_pos]
    simp
  | cons e rest ih =>
    simp only [List.any_cons, Bool.or_eq_false_iff] at hnone
    rw [List.cons_append, List.find?_cons_of_neg]
    · exact ih hnone.2
    · simpa using hnone.1

theorem logGet_logSet_self (log : List (String × List Annotation)) (k : String)
    (v : List Annotation) : logGet (logSet log k v) k = some v := by
  unfold logGet logSet
  split
  · rename_i hany
    rw [find?_map_set hany]
    rfl
  · rename_i hany
    rw [find?_append_new (Bool.not_eq_true _ ▸ eq_false_of_ne_true hany)]
    rfl

/-- Claim C10: `acceptSuggestion` and `declineSuggestion` on an id with no
history in the annotation log do not fail (the model's total functions
return normally, as the source has nothing to throw on this path): each
still appends exactly one Removal record whose `dependentOn` is that id, and
neither mutates the text. -/
theorem removal_unknown_id (st : EngineState) (id : String)
    (hnone : logGet st.log id = none) :
    ((acceptSuggestion st id).slots = st.slots ∧
      (stampedRemoval st AnnotationDescription.acceptSuggestion id).action
        = AnnotationAction.removal ∧
      (stampedRemoval st AnnotationDescription.acceptSuggestion id).dependentOn
        = some id ∧
      (acceptSuggestion st id).log
        = logSet st.log id [stampedRemoval st AnnotationDescription.acceptSuggestion id]) ∧
    ((declineSuggestion st id).slots = st.slots ∧
      (stampedRemoval st AnnotationDescription.declineSuggestion id).action
        = AnnotationAction.removal ∧
      (stampedRemoval st AnnotationDescription.declineSuggestion id).dependentOn
        = some id ∧
      (declineSuggestion st id).log
        = logSet st.log id [stampedRemoval st AnnotationDescription.declineSuggestion id]) := by
  constructor
  · refine ⟨?_, rfl, rfl, ?_⟩
    · unfold acceptSuggestion
      rw [hnone]
      simp [localAdd_slots]
    · unfold acceptSuggestion
      rw [hnone]
      simp only [Option.getD_none, List.find?_nil, Option.map_none']
      unfold localAdd deliver
      rw [processAnnotation_log]
      simp [hnone, jsSort, sortInsert, stampedRemoval]
  · refine ⟨?_, rfl, rfl, ?_⟩
    · unfold declineSuggestion
      rw [hnone]
      simp [localAdd_slots]
    · unfold declineSuggestion
      rw [hnone]
      simp only [Option.getD_none, List.find?_nil, Option.map_none']
      unfold localAdd deliver
      rw [processAnnotation_log]
      simp [hnone, jsSort, sortInsert, stampedRemoval]

/-- Claim C10, witness: accepting the unknown id `"ghost"` on a concrete
replica appends exactly one Removal depending on it and leaves the text
alone. -/
theorem removal_unknown_id_witness :
    logGet (initState textAB).log "ghost" = none ∧
    (acceptSuggestion (initState textAB) "ghost").slots = (initState textAB).slots :=
  ⟨by decide, ((removal_unknown_id (initState textAB) "ghost" (by decide)).1).1⟩

theorem textGetPosition_isSome (slots : List Slot) (i : Int)
    (h0 : 0 ≤ i) (h1 : i < textLength slots) :
    ∃ p, textGetPosition slots i = some p := by
  unfold textGetPosition textLength at *
  rw [if_neg (by omega)]
  have hlt : i.toNat < (slots.filter (fun s => s.present)).length := by omega
  rw [List.get?_eq_get hlt]
  exact ⟨_, rfl⟩

theorem textGetPosition_eq_none (slots : List Slot) (i : Int)
    (h : textLength slots ≤ i) : textGetPosition slots i = none := by
  unfold textGetPosition textLength at *
  split
  · rfl
  · rw [List.get?_eq_none.mpr (by omega)]
    rfl

/-- Claim C6 (amended): `addComment` fails with one of its `InvalidRange`
errors exactly for the claimed out-of-bounds or inverted ranges; for every
in-bounds range with `end_index < length` it succeeds, appending one closed
Addition(AddComment) record over the two positions and leaving the text
unchanged; but for `end_index = length` — which the validation admits — the
end-position lookup is out of range and the call errors instead of
succeeding. -/
theorem addComment_validation (st : EngineState) (s e : Int) (c : String)
    (hfresh : logGet st.log (freshId st) = none) :
    ((s < 0 ∨ s ≥ textLength st.slots ∨ e < 0 ∨ e > textLength st.slots ∨ e < s) ↔
      (addComment st s e c = Except.error CommentError.invalidStart ∨
       addComment st s e c = Except.error CommentError.invalidEnd ∨
       addComment st s e c = Except.error CommentError.invalidOrder)) ∧
    (0 ≤ s → s ≤ e → e < textLength st.slots →
      ∃ ps pe st2, addComment st s e c = Except.ok st2 ∧
        textGetPosition st.slots s = some ps ∧
        textGetPosition st.slots e = some pe ∧
        st2.slots = st.slots ∧
        st2.log = logSet st.log (freshId st) [stampedComment st ps pe c]) ∧
    (0 ≤ s → s < textLength st.slots → e = textLength st.slots →
      addComment st s e c = Except.error CommentError.positionOutOfRange) := by
  refine ⟨⟨?_, ?_⟩, ?_, ?_⟩
  · intro hbad
    unfold addComment
    split
    · exact Or.inl rfl
    · split
      · exact Or.inr (Or.inl rfl)
      · split
        · exact Or.inr (Or.inr rfl)
        · rename_i hg1 hg2 hg3
          exfalso
          simp only [Bool.or_eq_true, decide_eq_true_eq, not_or] at hg1 hg2
          omega
  · intro herr
    have hsplit : ∀ o : Except CommentError EngineState,
        addComment st s e c = o →
        (o = Except.error CommentError.invalidStart ∨
         o = Except.error CommentError.invalidEnd ∨
         o = Except.error CommentError.invalidOrder) →
        (s < 0 ∨ s ≥ textLength st.slots ∨ e < 0 ∨ e > textLength st.slots ∨ e < s) := by
      intro o ho hcase
      unfold addComment at ho
      by_cases h1 : (s < 0 ∨ s ≥ textLength st.slots)
      · rcases h1 with h | h
        · exact Or.inl h
        · exact Or.inr (Or.inl h)
      · rw [if_neg (by simp only [Bool.or_eq_true, decide_eq_true_eq]; omega)] at ho
        by_cases h2 : (e < 0 ∨ e > textLength st.slots)
        · rcases h2 with h | h
          · exact Or.inr (Or.inr (Or.inl h))
          · exact Or.inr (Or.inr (Or.inr (Or.inl h)))
        · rw [if_neg (by simp only [Bool.or_eq_true, decide_eq_true_eq]; omega)] at ho
          by_cases h3 : e < s
          · exact Or.inr (Or.inr (Or.inr (Or.inr h3)))
          · exfalso
            rw [if_neg (by simpa using h3)] at ho
            rcases hps : textGetPosition st.slots s with _ | ps
            · rcases textGetPosition_isSome st.slots s (by omega) (by omega) with ⟨p, hp⟩
              rw [hp] at hps
              exact Option.noConfusion hps
            · rcases hpe : textGetPosition st.slots e with _ | pe
              · rw [hps, hpe] at ho
                rw [← ho] at hcase
                rcases hcase with h | h | h <;> exact CommentError.noConfusion (Except.error.inj h)
              · rw [hps, hpe] at ho
                rw [← ho] at hcase
                rcases hcase with h | h | h <;> exact Except.noConfusion h
    exact hsplit (addComment st s e c) rfl herr
  · intro h0 hse hlt
    rcases textGetPosition_isSome st.slots s (by omega) (by omega) with ⟨ps, hps⟩
    rcases textGetPosition_isSome st.slots e (by omega) (by omega) with ⟨pe, hpe⟩
    have hcall : addComment st s e c = Except.ok (localAdd st { blankRec with
        type := AnnotationType.comment
        action := AnnotationAction.addition
        description := some AnnotationDescription.addComment
        endClosed := true
        startClosed := true
        userId := st.userId
        startPosition := some ps
        endPosition := some pe
        value := some c }) := by
      unfold addComment
      rw [if_neg (by simp only [Bool.or_eq_true, decide_eq_true_eq]; omega),
        if_neg (by simp only [Bool.or_eq_true, decide_eq_true_eq]; omega),
        if_neg (by omega), hps, hpe]
    refine ⟨ps, pe, _, hcall, hps, hpe, ?_, ?_⟩
    · rw [localAdd_slots]
    · unfold localAdd deliver
      rw [processAnnotation_log]
      simp [hfresh, jsSort, sortInsert, stampedComment]
  · intro h0 hlt heq
    unfold addComment
    rw [if_neg (by simp only [Bool.or_eq_true, decide_eq_true_eq]; omega),
      if_neg (by simp only [Bool.or_eq_true, decide_eq_true_eq]; omega),
      if_neg (by omega)]
    rcases textGetPosition_isSome st.slots s (by omega) (by omega) with ⟨ps, hps⟩
    rw [hps, textGetPosition_eq_none st.slots e (by omega)]

/-- Claim C6, witness: on the concrete three-character document,
`addComment(0, 1, "n")` succeeds and appends exactly the closed AddComment
record over the two positions. -/
theorem addComment_validation_witness :
    (0 : Int) ≤ 0 ∧
    ∃ ps pe st2, addComment (initState textABC) 0 1 "n" = Except.ok st2 ∧
      textGetPosition (initState textABC).slots 0 = some ps ∧
      textGetPosition (initState textABC).slots 1 = some pe ∧
      st2.slots = (initState textABC).slots ∧
      st2.log = logSet (initState textABC).log (freshId (initState textABC))
        [stampedComment (initState textABC) ps pe "n"] :=
  ⟨by decide, (addComment_validation (initState textABC) 0 1 "n" (by decide)).2.1
    (by decide) (by decide) (by decide)⟩

/-- Claim C5 (amended): when `insert(index, values, true)` finds a live
same-user InsertSuggestion among the annotations at the first inserted
character (and no other user's InsertSuggestion there), it appends no
annotation record at all — the whole operation is exactly the text
insertion, and the existing open-ended suggestion simply covers the new
characters.  The source appends neither an Update nor an Addition on this
path. -/
theorem insert_same_user_absorbs (st : EngineState) (index : Int)
    (values : String) (startPos : Nat) (entries : List Entry)
    (hv : ¬ values.length = 0)
    (hsp : textGetPosition (textInsertOp st index values).slots index = some startPos)
    (hex : getAnnotationsInternal (textInsertOp st index values) startPos = some entries)
    (hsame : (entries.filter (fun s =>
        s.ann.description = some AnnotationDescription.insertSuggestion &&
        s.ann.userId = st.userId)).length > 0)
    (hother : entries.filter (fun s =>
        s.ann.description = some AnnotationDescription.insertSuggestion &&
        !(s.ann.userId = st.userId)) = []) :
    insertOp st index values true = textInsertOp st index values := by
  unfold insertOp
  rw [if_neg hv]
  simp only [hsp, hex]
  have huid : (textInsertOp st index values).userId = st.userId := rfl
  simp only [huid, Bool.true_and, Bool.not_true, Bool.false_and, Bool.or_false]
  rw [hother]
  simp only [List.foldl_nil]
  rw [if_neg]
  simp [hsame]

/-- Claim C5, witness: the absorption theorem applied to the concrete
scenario `insert(0,"ab",true)` then `insert(2,"cd",true)` by the same user:
the second call is exactly the text insertion. -/
theorem insert_same_user_absorbs_witness :
    insertOp absorbSt1 2 "cd" true = textInsertOp absorbSt1 2 "cd" :=
  insert_same_user_absorbs absorbSt1 2 "cd" 102 absorbEntries
    (by decide) (by decide) (by decide) (by decide) (by decide)

theorem mergeProps_id (a : Annotation) (p : UpdatedProps) :
    (mergeProps a p).id = a.id := rfl

theorem applyUpdateOperations_id (a : Annotation) (l : List Annotation) :
    (applyUpdateOperations a l).id = a.id := by
  unfold applyUpdateOperations
  have aux : ∀ (l' : List Annotation) (acc : Annotation), acc.id = a.id →
      (l'.foldl (fun acc u =>
        if u.dependentOn = some a.id then mergeProps acc u.updatedProperties
        else acc) acc).id = a.id := by
    intro l'
    induction l' with
    | nil => intro acc h; exact h
    | cons u rest ih =>
      intro acc h
      simp only [List.foldl_cons]
      apply ih
      split
      · exact h
      · exact h
  exact aux _ a rfl

theorem dpGet_subset_flat (d : DataPoint) (t : AnnotationType) :
    ∀ en ∈ dpGet d t, en ∈ dpValuesFlat d := by
  unfold dpGet
  cases hf : d.find? (fun b => b.1 = t) with
  | none => simp
  | some b =>
    intro en he
    have hb : b ∈ d := List.mem_of_find?_eq_some hf
    unfold dpValuesFlat
    rw [List.mem_flatten]
    exact ⟨b.2, List.mem_map_of_mem _ hb, he⟩

theorem dpGet_ne_nil (d : DataPoint) (t : AnnotationType)
    (hhas : dpHas d t = true) (hne : ∀ b ∈ d, b.2 ≠ []) :
    dpGet d t ≠ [] := by
  unfold dpGet
  cases hf : d.find? (fun b => b.1 = t) with
  | none =>
    exfalso
    unfold dpHas at hhas
    rcases List.any_eq_true.mp hhas with ⟨b, hb, hp⟩
    have := List.find?_eq_none.mp hf b hb
    exact this hp
  | some b => exact hne b (List.mem_of_find?_eq_some hf)

theorem dpSet_get_self (d : DataPoint) (t : AnnotationType)
    (hhas : dpHas d t = true)
    (hkeys : (d.map (fun b => b.1)).Nodup) :
    dpSet d t (dpGet d t) = d := by
  unfold dpSet
  rw [if_pos hhas]
  induction d with
  | nil => rfl
  | cons b rest ih =>
    simp only [List.map_cons, List.nodup_cons] at hkeys
    by_cases hb : b.1 = t
    · have hget : dpGet (b :: rest) t = b.2 := by
        unfold dpGet
        rw [List.find?_cons_of_pos _ (by simpa using hb)]
      rw [List.map_cons, if_pos hb, hget]
      have htail : rest.map (fun e => if e.1 = t then (t, dpGet (b :: rest) t) else e)
          = rest := by
        conv_rhs => rw [← List.map_id rest]
        apply List.map_congr_left
        intro e he
        have : ¬ e.1 = t := by
          intro hc
          apply hkeys.1
          have hmem : e.1 ∈ rest.map (fun b => b.1) :=
            List.mem_map_of_mem (fun b => b.1) he
          rw [hc] at hmem
          rw [hb]
          exact hmem
        rw [if_neg this]
        rfl
      rw [hget] at htail
      rw [htail, ← hb]
    · have hget : dpGet (b :: rest) t = dpGet rest t := by
        unfold dpGet
        rw [List.find?_cons_of_neg _ (by simpa using hb)]
      have hhas' : dpHas rest t = true := by
        unfold dpHas at hhas ⊢
        rcases List.any_eq_true.mp hhas with ⟨x, hx, hp⟩
        rcases List.mem_cons.mp hx with hx | hx
        · exact absurd (by simpa using hp) (hx ▸ hb)
        · exact List.any_eq_true.mpr ⟨x, hx, hp⟩
      rw [List.map_cons, if_neg hb, hget]
      exact congrArg _ (ih hhas' hkeys.2)

theorem dpDelete_absent (d : DataPoint) (t : AnnotationType)
    (hhas : dpHas d t = false) : dpDelete d t = d := by
  unfold dpDelete
  apply List.filter_eq_self.mpr
  intro b hb
  unfold dpHas at hhas
  have : ¬ (b.1 = t) := by
    intro hc
    rw [List.any_eq_false] at hhas
    exact hhas b hb (by simpa using hc)
  simpa using this

theorem removeStep_id (d : DataPoint) (a : Annotation)
    (hne : ∀ b ∈ d, b.2 ≠ [])
    (hkeys : (d.map (fun b => b.1)).Nodup)
    (hno : ∀ en ∈ dpValuesFlat d, ¬ en.ann.id = a.id) :
    (if ((dpGet d a.type).filter (fun e => !(e.ann.id = a.id))).length > 0 then
      dpSet d a.type ((dpGet d a.type).filter (fun e => !(e.ann.id = a.id)))
    else dpDelete d a.type) = d := by
  have hkept : (dpGet d a.type).filter (fun e => !(e.ann.id = a.id)) = dpGet d a.type := by
    apply List.filter_eq_self.mpr
    intro en he
    have := hno en (dpGet_subset_flat d a.type en he)
    simpa using this
  rw [hkept]
  by_cases hhas : dpHas d a.type = true
  · rw [if_pos]
    · exact dpSet_get_self d a.type hhas hkeys
    · have := dpGet_ne_nil d a.type hhas hne
      have := List.length_pos.mpr this
      omega
  · have hget : dpGet d a.type = [] := by
      unfold dpGet
      rw [List.find?_eq_none.mpr]
      intro b hb
      intro hp
      exact hhas (List.any_eq_true.mpr ⟨b, hb, hp⟩)
    rw [hget]
    simp only [List.length_nil, gt_iff_lt, Nat.lt_irrefl, if_false]
    exact dpDelete_absent d a.type (eq_false_of_ne_true hhas)

theorem enumFrom_map_id {f : Int → DataPoint → DataPoint} {lo hi : Int} :
    ∀ (al : List (Nat × DataPoint)) (n : Nat),
    (∀ e ∈ al, ∀ i, f i e.2 = e.2) →
    (List.enumFrom n al).map (fun e =>
      if lo ≤ (e.1 : Int) && (e.1 : Int) ≤ hi then (e.2.1, f (e.1 : Int) e.2.2)
      else e.2) = al
  | [], _, _ => rfl
  | x :: rest, n, h => by
    rw [List.enumFrom_cons, List.map_cons]
    have hx : (if lo ≤ (n : Int) && (n : Int) ≤ hi then (x.1, f (n : Int) x.2)
        else x) = x := by
      split
      · rw [h x (List.mem_cons_self _ _) (n : Int)]
      · rfl
    rw [hx, enumFrom_map_id rest (n + 1) (fun e he i => h e (List.mem_cons_of_mem _ he) i)]

theorem mapIdxRange_id (al : List (Nat × DataPoint)) (lo hi : Int)
    (f : Int → DataPoint → DataPoint)
    (h : ∀ e ∈ al, ∀ i, f i e.2 = e.2) :
    mapIdxRange al lo hi f = al := by
  unfold mapIdxRange
  exact enumFrom_map_id al 0 h

theorem removeAnnotation_view_id (st : EngineState) (a : Annotation)
    (reason : AnnotationRemovalReason) (author : String)
    (hwfne : ∀ e ∈ st.annList, ∀ b ∈ e.2, b.2 ≠ [])
    (hwfkeys : ∀ e ∈ st.annList, (e.2.map (fun b => b.1)).Nodup)
    (hno : ∀ e ∈ st.annList, ∀ en ∈ dpValuesFlat e.2, ¬ en.ann.id = a.id) :
    ( removeAnnotation st a reason author).annList = st.annList ∧
    ∃ i j, ( removeAnnotation st a reason author).events = st.events ++
      [EngineEvent.removed i j reason a author] := by
  constructor
  · unfold removeAnnotation
    simp only
    apply mapIdxRange_id
    intro e he i
    exact removeStep_id e.2 a (hwfne e he) (hwfkeys e he) (hno e he)
  · exact ⟨_, _, rfl⟩

/-- Claim C4 (amended): a Removal record `r` for change id `d` whose
history holds no Addition is dropped by `processAnnotation` — only the
append-only log grows, the derived view, the text and the event stream are
untouched.  A stale or duplicate Removal — one whose history's last record
after insertion is already a Removal and whose annotation's entries are
already absent from the view — is NOT ignored: the derived view stays
unchanged but `removeAnnotation` runs again and a fresh `AnnotationRemoved`
event is emitted. -/
theorem removal_record_processing (st : EngineState) (r : Annotation) (d : String)
    (hact : r.action = AnnotationAction.removal)
    (hdep : r.dependentOn = some d) :
    ((∀ x ∈ groupAfterInsert st r d, ¬ x.id = d) →
      deliver st r = { st with log := logSet st.log d (groupAfterInsert st r d) }) ∧
    (∀ a0, (groupAfterInsert st r d).find? (fun x => x.id = d) = some a0 →
      ((groupAfterInsert st r d).getLast?.map (fun x => x.action))
        = some AnnotationAction.removal →
      (∀ e ∈ st.annList, ∀ b ∈ e.2, b.2 ≠ []) →
      (∀ e ∈ st.annList, (e.2.map (fun b => b.1)).Nodup) →
      (∀ e ∈ st.annList, ∀ en ∈ dpValuesFlat e.2, ¬ en.ann.id = d) →
      (deliver st r).annList = st.annList ∧
      (deliver st r).slots = st.slots ∧
      ∃ i j, (deliver st r).events = st.events ++
        [EngineEvent.removed i j
          (if r.description = some AnnotationDescription.declineSuggestion then
            AnnotationRemovalReason.declined
          else if r.description = some AnnotationDescription.acceptSuggestion then
            AnnotationRemovalReason.accepted
          else AnnotationRemovalReason.removed)
          (applyUpdateOperations a0 (groupAfterInsert st r d)) r.userId]) := by
  have hkey : (if r.action = AnnotationAction.addition then r.id
      else r.dependentOn.getD r.id) = d := by
    rw [hact, hdep]
    rfl
  have hdeliver : deliver st r = processAnnotation
      { st with log := logSet st.log d (groupAfterInsert st r d) } r := by
    unfold deliver
    rw [hkey]
    rfl
  have hlog : logGet (logSet st.log d (groupAfterInsert st r d)) d
      = some (groupAfterInsert st r d) := logGet_logSet_self st.log d _
  constructor
  · intro hnoadd
    rw [hdeliver]
    unfold processAnnotation
    rw [if_pos hact, hdep]
    simp only [hlog]
    by_cases hlen : (groupAfterInsert st r d).length = 0
    · rw [if_pos hlen]
    · rw [if_neg hlen]
      split
      · rfl
      · rw [List.find?_eq_none.mpr (fun x hx => by simpa using hnoadd x hx)]
  · intro a0 hfind hlast hwfne hwfkeys hno
    have hne : (groupAfterInsert st r d).length ≠ 0 := by
      have := List.ne_nil_of_mem (List.mem_of_find?_eq_some hfind)
      have := List.length_pos.mpr this
      omega
    have ha0 : a0.id = d := by simpa using List.find?_some hfind
    have hbranch : deliver st r = removeAnnotation
        { st with log := logSet st.log d (groupAfterInsert st r d) }
        (applyUpdateOperations a0 (groupAfterInsert st r d))
        (if r.description = some AnnotationDescription.declineSuggestion then
          AnnotationRemovalReason.declined
        else if r.description = some AnnotationDescription.acceptSuggestion then
          AnnotationRemovalReason.accepted
        else AnnotationRemovalReason.removed) r.userId := by
      rw [hdeliver]
      unfold processAnnotation
      rw [if_pos hact, hdep]
      simp only [hlog]
      rw [if_neg hne]
      rw [if_neg (by rw [hlast]; simp)]
      rw [hfind]
    have hid : (applyUpdateOperations a0 (groupAfterInsert st r d)).id = d := by
      rw [applyUpdateOperations_id]
      exact ha0
    have hview := removeAnnotation_view_id
      { st with log := logSet st.log d (groupAfterInsert st r d) }
      (applyUpdateOperations a0 (groupAfterInsert st r d))
      (if r.description = some AnnotationDescription.declineSuggestion then
        AnnotationRemovalReason.declined
      else if r.description = some AnnotationDescription.acceptSuggestion then
        AnnotationRemovalReason.accepted
      else AnnotationRemovalReason.removed) r.userId
      hwfne hwfkeys (by
        intro e he en hen
        rw [hid]
        exact hno e he en hen)
    refine ⟨?_, ?_, ?_⟩
    · rw [hbranch]
      exact hview.1
    · rw [hbranch, removeAnnotation_slots]
    · rw [hbranch]
      exact hview.2

/-- Claim C4, witness: the no-Addition part applied to a removal for the
unknown change id `"D"` on a fresh two-character replica — the record is
dropped with only the log growing. -/
theorem removal_record_processing_witness :
    deliver (initState textAB) delRecR2 = { initState textAB with
      log := logSet (initState textAB).log "D"
        (groupAfterInsert (initState textAB) delRecR2 "D") } :=
  (removal_record_processing (initState textAB) delRecR2 "D" (by decide)
    (by decide)).1 (by decide)

theorem logSet_of_mem_eq (log : List (String × List Annotation)) (k : String)
    (v : List Annotation)
    (hmem : log.any (fun e => e.1 = k) = true)
    (hall : ∀ e ∈ log, e.1 = k → e = (k, v)) :
    logSet log k v = log := by
  unfold logSet
  rw [if_pos hmem]
  conv_rhs => rw [← List.map_id log]
  apply List.map_congr_left
  intro e he
  by_cases hk : e.1 = k
  · rw [if_pos hk, hall e he hk]
    rfl
  · rw [if_neg hk]
    rfl

theorem logAny_of_logGet (log : List (String × List Annotation)) (k : String)
    (v : List Annotation) (h : logGet log k = some v) :
    log.any (fun e => e.1 = k) = true := by
  unfold logGet at h
  cases hf : log.find? (fun e => e.1 = k) with
  | none =>
    rw [hf] at h
    exact Option.noConfusion h
  | some e =>
    have hmem := List.mem_of_find?_eq_some hf
    have hp := List.find?_some hf
    exact List.any_eq_true.mpr ⟨e, hmem, hp⟩

theorem logGet_mem_of_nodup (log : List (String × List Annotation))
    (hnodup : (log.map (fun e => e.1)).Nodup) :
    ∀ e ∈ log, logGet log e.1 = some e.2 := by
  induction log with
  | nil =>
    intro e he
    simp at he
  | cons x rest ih =>
    simp only [List.map_cons, List.nodup_cons] at hnodup
    intro e he
    rcases List.mem_cons.mp he with he | he
    · subst he
      unfold logGet
      rw [List.find?_cons_of_pos _ (by simp)]
      rfl
    · have hne : ¬ x.1 = e.1 := by
        intro hc
        apply hnodup.1
        have hmem : e.1 ∈ rest.map (fun e => e.1) := List.mem_map_of_mem _ he
        rw [hc]
        exact hmem
      unfold logGet
      rw [List.find?_cons_of_neg _ (by simpa using hne)]
      exact ih hnodup.2 e he

theorem nodup_key_unique (log : List (String × List Annotation))
    (hnodup : (log.map (fun e => e.1)).Nodup) :
    ∀ e ∈ log, ∀ e' ∈ log, e'.1 = e.1 → e' = e := by
  induction log with
  | nil => simp
  | cons x rest ih =>
    simp only [List.map_cons, List.nodup_cons] at hnodup
    intro e he e' he' hk
    rcases List.mem_cons.mp he with he | he
    · rcases List.mem_cons.mp he' with he' | he'
      · rw [he, he']
      · exfalso
        apply hnodup.1
        have hmem : e'.1 ∈ rest.map (fun e => e.1) := List.mem_map_of_mem _ he'
        rw [hk, he] at hmem
        exact hmem
    · rcases List.mem_cons.mp he' with he' | he'
      · exfalso
        apply hnodup.1
        have hmem : e.1 ∈ rest.map (fun e => e.1) := List.mem_map_of_mem _ he
        rw [← hk, he'] at hmem
        exact hmem
      · exact ih hnodup.2 e he e' he' hk

theorem loadGroups_noop :
    ∀ (rest : List (String × List Annotation)) (log : List (String × List Annotation)),
    (∀ e ∈ rest, logGet log e.1 = some e.2 ∧
      (∀ e' ∈ log, e'.1 = e.1 → e' = (e.1, e.2)) ∧
      (∀ a ∈ e.2, (a.lamport : Int) ≤ lastLamportOf e.2)) →
    loadGroups (rest.map (fun e => e.1)) (rest.map (fun e => e.2.length))
      ((rest.map (fun e => e.2)).flatten)
      (((rest.map (fun e => e.2)).flatten).map (fun a => a.lamport)) log = (log, [])
  | [], log, _ => rfl
  | x :: rest, log, h => by
    obtain ⟨hget, huniq, hbound⟩ := h x (List.mem_cons_self _ _)
    simp only [List.map_cons, List.flatten_cons, List.map_append, loadGroups]
    rw [List.headD_cons, List.tail_cons]
    rw [hget]
    simp only [Option.getD_some]
    rw [List.take_left, List.take_left' (by rw [List.length_map]),
      List.drop_left, List.drop_left' (by rw [List.length_map])]
    have hzip : ∀ (l : List Annotation), l.zip (l.map (fun a => a.lamport))
        = l.map (fun a => (a, a.lamport)) := by
      intro l
      induction l with
      | nil => rfl
      | cons a t ih => rw [List.map_cons, List.zip_cons_cons, ih, List.map_cons]
    rw [hzip x.2, List.filter_map]
    have hfil : x.2.filter ((fun (e : Annotation × Nat) =>
        decide ((e.2 : Int) > lastLamportOf x.2)) ∘ (fun a => (a, a.lamport))) = [] := by
      rw [List.filter_eq_nil_iff]
      intro a ha
      simp only [Function.comp_apply, decide_eq_true_eq, gt_iff_lt, not_lt]
      exact hbound a ha
    rw [hfil]
    simp only [List.map_nil, List.append_nil, List.nil_append]
    rw [logSet_of_mem_eq log x.1 x.2 (logAny_of_logGet log x.1 x.2 hget)
      (fun e' he' hk => huniq e' he' hk)]
    rw [loadGroups_noop rest log (fun e he => h e (List.mem_cons_of_mem _ he))]

/-- Claim C8: loading the annotation log's own saved snapshot leaves the log
state unchanged and emits no `Add` events, because per change id only
records with a Lamport stamp strictly greater than the last one already held
are applied.  The hypotheses are the invariants every reachable log
satisfies: distinct change ids, and each group sorted so that its last
record carries the greatest Lamport stamp. -/
theorem loadCRDT_self_idempotent (log : List (String × List Annotation))
    (hnodup : (log.map (fun e => e.1)).Nodup)
    (hsorted : ∀ e ∈ log, ∀ a ∈ e.2, (a.lamport : Int) ≤ lastLamportOf e.2) :
    loadLog log (saveLog log) = (log, []) := by
  unfold loadLog saveLog
  simp only
  apply loadGroups_noop log log
  intro e he
  refine ⟨logGet_mem_of_nodup log hnodup e he, ?_, hsorted e he⟩
  intro e' he' hk
  rw [nodup_key_unique log hnodup e he e' he' hk]

/-- Claim C8, witness: the self-load theorem applied to the reachable log of
the replica `staleSt`. -/
theorem loadCRDT_self_idempotent_witness :
    loadLog staleSt.log (saveLog staleSt.log) = (staleSt.log, []) :=
  loadCRDT_self_idempotent staleSt.log (by decide) (by decide)

theorem ordIdx_cons (s0 : Slot) (rest : List Slot) (p : Nat) :
    ordIdx (s0 :: rest) p = if s0.pos = p then 0 else ordIdx rest p + 1 := by
  unfold ordIdx
  rw [List.findIdx_cons]
  by_cases h : s0.pos = p <;> simp [h]

theorem presentCountBefore_cons (s0 : Slot) (rest : List Slot) (p : Nat) :
    presentCountBefore (s0 :: rest) p =
      if s0.pos = p then 0
      else (if s0.present then 1 else 0) + presentCountBefore rest p := rfl

theorem slotExists_cons (s0 : Slot) (rest : List Slot) (p : Nat) :
    slotExists (s0 :: rest) p = (s0.pos = p || slotExists rest p) := by
  unfold slotExists
  rw [List.any_cons]

theorem slotPresent_cons (s0 : Slot) (rest : List Slot) (p : Nat) :
    slotPresent (s0 :: rest) p = ((s0.pos = p && s0.present) || slotPresent rest p) := by
  unfold slotPresent
  rw [List.any_cons]

theorem slotExists_of_slotPresent {slots : List Slot} {p : Nat}
    (h : slotPresent slots p = true) : slotExists slots p = true := by
  unfold slotPresent at h
  unfold slotExists
  rcases List.any_eq_true.mp h with ⟨s, hs, hp⟩
  simp only [Bool.and_eq_true, decide_eq_true_eq] at hp
  exact List.any_eq_true.mpr ⟨s, hs, by simp [hp.1]⟩

theorem slotPresent_head_of_nodup {s0 : Slot} {rest : List Slot} {p : Nat}
    (hnd : ((s0 :: rest).map (fun s => s.pos)).Nodup) (hp : s0.pos = p) :
    slotPresent (s0 :: rest) p = s0.present := by
  simp only [List.map_cons, List.nodup_cons] at hnd
  rw [slotPresent_cons]
  have hrest : slotPresent rest p = false := by
    cases hq : slotPresent rest p with
    | false => rfl
    | true =>
      exfalso
      apply hnd.1
      have := slotExists_of_slotPresent hq
      unfold slotExists at this
      rcases List.any_eq_true.mp this with ⟨s, hs, hsp⟩
      simp only [decide_eq_true_eq] at hsp
      rw [hp, ← hsp]
      exact List.mem_map_of_mem (fun s => s.pos) hs
  rw [hrest, hp]
  simp

theorem slotPresent_of_mem {slots : List Slot} {sl : Slot}
    (hm : sl ∈ slots) (hp : sl.present = true) :
    slotPresent slots sl.pos = true := by
  unfold slotPresent
  exact List.any_eq_true.mpr ⟨sl, hm, by simp [hp]⟩

theorem cnt_mono : ∀ (slots : List Slot) (p q : Nat),
    ordIdx slots p ≤ ordIdx slots q →
    presentCountBefore slots p ≤ presentCountBefore slots q
  | [], _, _, _ => le_refl _
  | s0 :: rest, p, q, h => by
    rw [ordIdx_cons, ordIdx_cons] at h
    rw [presentCountBefore_cons, presentCountBefore_cons]
    by_cases hp : s0.pos = p
    · rw [if_pos hp]
      exact Nat.zero_le _
    · rw [if_neg hp] at h ⊢
      by_cases hq : s0.pos = q
      · rw [if_pos hq] at h
        omega
      · rw [if_neg hq] at h ⊢
        have := cnt_mono rest p q (by omega)
        omega

theorem cnt_strict_mono : ∀ (slots : List Slot) (p q : Nat),
    ((slots.map (fun s => s.pos)).Nodup) →
    slotPresent slots p = true →
    ordIdx slots p < ordIdx slots q →
    presentCountBefore slots p < presentCountBefore slots q
  | [], _, _, _, hp, _ => by simp [slotPresent] at hp
  | s0 :: rest, p, q, hnd, hp, h => by
    rw [ordIdx_cons, ordIdx_cons] at h
    rw [presentCountBefore_cons, presentCountBefore_cons]
    by_cases hps : s0.pos = p
    · have hpres : s0.present = true := by
        rw [← slotPresent_head_of_nodup hnd hps]
        exact hp
      rw [if_pos hps]
      have hqs : ¬ s0.pos = q := by
        intro hc
        rw [if_pos hps, if_pos hc] at h
        omega
      rw [if_neg hqs, if_pos hpres]
      omega
    · rw [if_neg hps] at h ⊢
      by_cases hqs : s0.pos = q
      · rw [if_pos hqs] at h
        omega
      · rw [if_neg hqs] at h ⊢
        simp only [List.map_cons, List.nodup_cons] at hnd
        have hptail : slotPresent rest p = true := by
          rw [slotPresent_cons] at hp
          rcases Bool.or_eq_true_iff.mp hp with hx | hx
          · simp only [Bool.and_eq_true, decide_eq_true_eq] at hx
            exact absurd hx.1 hps
          · exact hx
        have := cnt_strict_mono rest p q hnd.2 hptail (by omega)
        omega

theorem ordIdx_inj : ∀ (slots : List Slot) (p q : Nat),
    slotExists slots p = true → slotExists slots q = true →
    ordIdx slots p = ordIdx slots q → p = q
  | [], _, _, hp, _, _ => by simp [slotExists] at hp
  | s0 :: rest, p, q, hp, hq, h => by
    rw [ordIdx_cons, ordIdx_cons] at h
    by_cases hps : s0.pos = p
    · by_cases hqs : s0.pos = q
      · rw [← hps, hqs]
      · rw [if_pos hps, if_neg hqs] at h
        omega
    · by_cases hqs : s0.pos = q
      · rw [if_neg hps, if_pos hqs] at h
        omega
      · rw [if_neg hps, if_neg hqs] at h
        have hpt : slotExists rest p = true := by
          rw [slotExists_cons] at hp
          rcases Bool.or_eq_true_iff.mp hp with hx | hx
          · exact absurd (by simpa using hx) hps
          · exact hx
        have hqt : slotExists rest q = true := by
          rw [slotExists_cons] at hq
          rcases Bool.or_eq_true_iff.mp hq with hx | hx
          · exact absurd (by simpa using hx) hqs
          · exact hx
        exact ordIdx_inj rest p q hpt hqt (by omega)

theorem cnt_lt_total : ∀ (slots : List Slot) (p : Nat),
    ((slots.map (fun s => s.pos)).Nodup) →
    slotPresent slots p = true →
    presentCountBefore slots p < (slots.filter (fun s => s.present)).length
  | [], _, _, hp => by simp [slotPresent] at hp
  | s0 :: rest, p, hnd, hp => by
    rw [presentCountBefore_cons]
    by_cases hps : s0.pos = p
    · have hpres : s0.present = true := by
        rw [← slotPresent_head_of_nodup hnd hps]
        exact hp
      rw [if_pos hps, List.filter_cons, if_pos (by simp [hpres])]
      simp
    · simp only [List.map_cons, List.nodup_cons] at hnd
      have hptail : slotPresent rest p = true := by
        rw [slotPresent_cons] at hp
        rcases Bool.or_eq_true_iff.mp hp with hx | hx
        · simp only [Bool.and_eq_true, decide_eq_true_eq] at hx
          exact absurd hx.1 hps
        · exact hx
      have ih := cnt_lt_total rest p hnd.2 hptail
      rw [if_neg hps, List.filter_cons]
      by_cases hpres : s0.present = true
      · rw [if_pos (by simpa using hpres), if_pos hpres, List.length_cons]
        omega
      · rw [if_neg (by simpa using hpres), if_neg hpres]
        omega

theorem ord_le_of_cnt_le {slots : List Slot} {x y : Nat}
    (hnd : (slots.map (fun s => s.pos)).Nodup)
    (hy : slotPresent slots y = true)
    (h : presentCountBefore slots x ≤ presentCountBefore slots y) :
    ordIdx slots x ≤ ordIdx slots y := by
  by_contra hc
  push_neg at hc
  have := cnt_strict_mono slots y x hnd hy hc
  omega

theorem ord_lt_of_cnt_lt {slots : List Slot} {x y : Nat}
    (h : presentCountBefore slots x < presentCountBefore slots y) :
    ordIdx slots x < ordIdx slots y := by
  by_contra hc
  push_neg at hc
  have := cnt_mono slots y x hc
  omega

theorem ord_lt_of_absent_anchor {slots : List Slot} {sp sp' : Nat}
    (hnd : (slots.map (fun s => s.pos)).Nodup)
    (hex : slotExists slots sp = true) (habs : slotPresent slots sp = false)
    (hp : slotPresent slots sp' = true)
    (hcnt : presentCountBefore slots sp' = presentCountBefore slots sp) :
    ordIdx slots sp < ordIdx slots sp' := by
  rcases Nat.lt_trichotomy (ordIdx slots sp') (ordIdx slots sp) with h | h | h
  · have := cnt_strict_mono slots sp' sp hnd hp h
    omega
  · have heq := ordIdx_inj slots sp' sp (slotExists_of_slotPresent hp) hex h
    rw [heq] at hp
    rw [hp] at habs
    exact Bool.noConfusion habs
  · exact h

theorem textGetPosition_nonneg {slots : List Slot} {i : Int} {p : Nat}
    (h : textGetPosition slots i = some p) : 0 ≤ i := by
  unfold textGetPosition at h
  by_cases hi : i < 0
  · rw [if_pos hi] at h
    exact Option.noConfusion h
  · omega

theorem filterGet_cnt : ∀ (slots : List Slot) (k : Nat) (s : Slot),
    ((slots.map (fun s => s.pos)).Nodup) →
    (slots.filter (fun s => s.present)).get? k = some s →
    slotPresent slots s.pos = true ∧ presentCountBefore slots s.pos = k
  | [], k, s, _, h => by simp at h
  | s0 :: rest, k, s, hnd, h => by
    have hndr : (rest.map (fun s => s.pos)).Nodup := by
      simp only [List.map_cons, List.nodup_cons] at hnd
      exact hnd.2
    have hhead : ∀ s', s' ∈ rest → ¬ s0.pos = s'.pos := by
      intro s' hs' hc
      simp only [List.map_cons, List.nodup_cons] at hnd
      apply hnd.1
      have hmem : s'.pos ∈ rest.map (fun s => s.pos) :=
        List.mem_map_of_mem (fun s => s.pos) hs'
      rw [hc]
      exact hmem
    rw [List.filter_cons] at h
    by_cases hpres : s0.present = true
    · rw [if_pos (by simpa using hpres)] at h
      cases k with
      | zero =>
        simp only [List.get?_cons_zero, Option.some.injEq] at h
        subst h
        constructor
        · exact slotPresent_of_mem (List.mem_cons_self _ _) hpres
        · rw [presentCountBefore_cons, if_pos rfl]
      | succ k' =>
        rw [List.get?_cons_succ] at h
        have ih := filterGet_cnt rest k' s hndr h
        have hmem : s ∈ rest := (List.mem_filter.mp (List.get?_mem h)).1
        constructor
        · rw [slotPresent_cons, ih.1]
          simp
        · rw [presentCountBefore_cons, if_neg (hhead s hmem), if_pos hpres, ih.2]
          omega
    · rw [if_neg (by simpa using hpres)] at h
      have ih := filterGet_cnt rest k s hndr h
      have hmem : s ∈ rest := (List.mem_filter.mp (List.get?_mem h)).1
      constructor
      · rw [slotPresent_cons, ih.1]
        simp
      · rw [presentCountBefore_cons, if_neg (hhead s hmem), if_neg hpres, ih.2]
        omega

theorem textGetPosition_cnt {slots : List Slot} {i : Int} {p : Nat}
    (hnd : (slots.map (fun s => s.pos)).Nodup)
    (h : textGetPosition slots i = some p) :
    slotPresent slots p = true ∧ (presentCountBefore slots p : Int) = i := by
  have h0 := textGetPosition_nonneg h
  unfold textGetPosition at h
  rw [if_neg (by omega)] at h
  cases hg : (slots.filter (fun s => s.present)).get? i.toNat with
  | none =>
    rw [hg] at h
    exact Option.noConfusion h
  | some s =>
    rw [hg] at h
    simp only [Option.map_some', Option.some.injEq] at h
    have hk := filterGet_cnt slots i.toNat s hnd hg
    constructor
    · rw [← h]
      exact hk.1
    · rw [← h, hk.2]
      omega

theorem bool_eq_of_iff {a b : Bool} (h : a = true ↔ b = true) : a = b := by
  cases a <;> cases b <;> simp_all

theorem deleteRange_strict (slots : List Slot) (ex : Annotation) (sp' ep' : Nat)
    (hnd : (slots.map (fun s => s.pos)).Nodup)
    (hspex : ∀ sp, ex.startPosition = some sp → slotExists slots sp = true)
    (hepex : ∀ ep, ex.endPosition = some ep → slotExists slots ep = true)
    (hlo : textGetPosition slots (declineLoIdx slots ex) = some sp')
    (hhi : textGetPosition slots (declineHiIdx slots ex) = some ep') :
    deleteRangeSlots slots sp' ep' = slots.map (fun sl =>
      if sl.present && strictlyInside slots ex.startPosition ex.endPosition sl.pos
      then { sl with present := false } else sl) := by
  obtain ⟨hp1, hc1⟩ := textGetPosition_cnt hnd hlo
  obtain ⟨hp2, hc2⟩ := textGetPosition_cnt hnd hhi
  unfold deleteRangeSlots
  apply List.map_congr_left
  intro sl hsl
  by_cases hpres : sl.present = true
  · have hslp : slotPresent slots sl.pos = true := slotPresent_of_mem hsl hpres
    have hstart : ordIdx slots sp' ≤ ordIdx slots sl.pos ↔
        (match ex.startPosition with
         | some sp => decide (ordIdx slots sp < ordIdx slots sl.pos)
         | none => true) = true := by
      rcases hst : ex.startPosition with _ | sp
      · simp only
        constructor
        · intro _
          trivial
        · intro _
          have hK : (presentCountBefore slots sp' : Int) = 0 := by
            rw [hc1]
            unfold declineLoIdx
            rw [hst]
            rfl
          apply ord_le_of_cnt_le hnd hslp
          omega
      · have hexs := hspex sp hst
        have hKdef : declineLoIdx slots ex
            = textIndexOfPosition slots sp SearchDir.left + 1 := by
          unfold declineLoIdx
          rw [hst]
        simp only [decide_eq_true_eq]
        by_cases hpsp : slotPresent slots sp = true
        · have hidx : textIndexOfPosition slots sp SearchDir.left
              = (presentCountBefore slots sp : Int) := by
            unfold textIndexOfPosition
            rw [if_pos hexs, if_pos hpsp]
          have hKcnt : (presentCountBefore slots sp' : Int)
              = (presentCountBefore slots sp : Int) + 1 := by
            rw [hc1, hKdef, hidx]
          constructor
          · intro hle
            have := cnt_mono slots sp' sl.pos hle
            have h2 : presentCountBefore slots sp < presentCountBefore slots sl.pos := by
              omega
            exact ord_lt_of_cnt_lt h2
          · intro hlt
            have := cnt_strict_mono slots sp sl.pos hnd hpsp hlt
            apply ord_le_of_cnt_le hnd hslp
            omega
        · have habs : slotPresent slots sp = false := eq_false_of_ne_true hpsp
          have hidx : textIndexOfPosition slots sp SearchDir.left
              = (presentCountBefore slots sp : Int) - 1 := by
            unfold textIndexOfPosition
            rw [if_pos hexs, if_neg hpsp]
          have hKcnt : (presentCountBefore slots sp' : Int)
              = (presentCountBefore slots sp : Int) := by
            rw [hc1, hKdef, hidx]
            omega
          have hOrd : ordIdx slots sp < ordIdx slots sp' :=
            ord_lt_of_absent_anchor hnd hexs habs hp1 (by omega)
          constructor
          · intro hle
            omega
          · intro hlt
            have := cnt_mono slots sp sl.pos (le_of_lt hlt)
            apply ord_le_of_cnt_le hnd hslp
            omega
    have hend : ordIdx slots sl.pos ≤ ordIdx slots ep' ↔
        (match ex.endPosition with
         | some ep => decide (ordIdx slots sl.pos < ordIdx slots ep)
         | none => true) = true := by
      rcases het : ex.endPosition with _ | ep
      · simp only
        constructor
        · intro _
          trivial
        · intro _
          have hM : (presentCountBefore slots ep' : Int) = textLength slots - 1 := by
            rw [hc2]
            unfold declineHiIdx
            rw [het]
          have htot := cnt_lt_total slots sl.pos hnd hslp
          apply ord_le_of_cnt_le hnd hp2
          unfold textLength at hM
          omega
      · have hexe := hepex ep het
        have hMdef : declineHiIdx slots ex
            = textIndexOfPosition slots ep SearchDir.right - 1 := by
          unfold declineHiIdx
          rw [het]
        have hidx : textIndexOfPosition slots ep SearchDir.right
            = (presentCountBefore slots ep : Int) := by
          unfold textIndexOfPosition
          rw [if_pos hexe]
          by_cases hpe : slotPresent slots ep = true
          · rw [if_pos hpe]
          · rw [if_neg hpe]
        have hMcnt : (presentCountBefore slots ep' : Int)
            = (presentCountBefore slots ep : Int) - 1 := by
          rw [hc2, hMdef, hidx]
        simp only [decide_eq_true_eq]
        constructor
        · intro hle
          have := cnt_mono slots sl.pos ep' hle
          apply ord_lt_of_cnt_lt
          omega
        · intro hlt
          have := cnt_strict_mono slots sl.pos ep hnd hslp hlt
          apply ord_le_of_cnt_le hnd hp2
          omega
    have hcond : (decide (ordIdx slots sp' ≤ ordIdx slots sl.pos) &&
        decide (ordIdx slots sl.pos ≤ ordIdx slots ep'))
        = (sl.present && strictlyInside slots ex.startPosition ex.endPosition sl.pos) := by
      rw [hpres, Bool.true_and]
      apply bool_eq_of_iff
      rw [Bool.and_eq_true]
      unfold strictlyInside
      rw [Bool.and_eq_true]
      simp only [decide_eq_true_eq]
      constructor
      · rintro ⟨ha, hb⟩
        exact ⟨hstart.mp ha, hend.mp hb⟩
      · rintro ⟨ha, hb⟩
        exact ⟨hstart.mpr ha, hend.mpr hb⟩
    rw [hcond]
  · have hf : sl.present = false := eq_false_of_ne_true hpres
    have hmark : { sl with present := false } = sl := by
      cases sl
      simp_all
    rw [hf, Bool.false_and]
    simp only [Bool.false_eq_true, if_false]
    split
    · exact hmark
    · rfl

/-- Claim C3 (amended): resolving a suggestion id whose first Addition folds
with its Updates to the effective annotation `exA`: accepting an
InsertSuggestion never changes the visible text; accepting a
DeleteSuggestion tombstones exactly the slots of its effective closed range;
declining a DeleteSuggestion leaves the text intact; and declining an
InsertSuggestion tombstones exactly the present characters strictly inside
its effective (possibly open) range — every character the open range covers,
which are the inserted characters only when nothing else was inserted into
the range. -/
theorem suggestion_resolution (st : EngineState) (id : String) (f exA : Annotation)
    (hf : ((logGet st.log id).getD []).find?
        (fun s => s.action = AnnotationAction.addition) = some f)
    (hexA : exA = applyUpdateOperations f ((logGet st.log id).getD [])) :
    (exA.description = some AnnotationDescription.insertSuggestion →
      (acceptSuggestion st id).slots = st.slots) ∧
    (exA.description = some AnnotationDescription.deleteSuggestion →
      ∀ sp ep, exA.startPosition = some sp → exA.endPosition = some ep →
      (acceptSuggestion st id).slots = deleteRangeSlots st.slots sp ep) ∧
    (exA.description = some AnnotationDescription.deleteSuggestion →
      (declineSuggestion st id).slots = st.slots) ∧
    (exA.description = some AnnotationDescription.insertSuggestion →
      ∀ sp' ep',
      (st.slots.map (fun s => s.pos)).Nodup →
      (∀ sp, exA.startPosition = some sp → slotExists st.slots sp = true) →
      (∀ ep, exA.endPosition = some ep → slotExists st.slots ep = true) →
      textGetPosition st.slots (declineLoIdx st.slots exA) = some sp' →
      textGetPosition st.slots (declineHiIdx st.slots exA) = some ep' →
      (declineSuggestion st id).slots = st.slots.map (fun sl =>
        if sl.present && strictlyInside st.slots exA.startPosition exA.endPosition sl.pos
        then { sl with present := false } else sl)) := by
  refine ⟨?_, ?_, ?_, ?_⟩
  · intro hdesc
    unfold acceptSuggestion
    simp only [hf, Option.map_some', ← hexA]
    rw [if_neg (by rw [hdesc]; simp)]
    exact localAdd_slots st _
  · intro hdesc sp ep hsp hep
    unfold acceptSuggestion
    simp only [hf, Option.map_some', ← hexA]
    rw [if_pos hdesc, hsp, hep]
    show (textDeleteRangeOp _ sp ep).slots = _
    unfold textDeleteRangeOp
    simp only
    rw [localAdd_slots]
  · intro hdesc
    unfold declineSuggestion
    simp only [hf, Option.map_some', ← hexA]
    rw [if_neg (by rw [hdesc]; simp)]
    exact localAdd_slots st _
  · intro hdesc sp' ep' hnd hspex hepex hlo hhi
    unfold declineSuggestion
    simp only [hf, Option.map_some', ← hexA]
    rw [if_pos hdesc]
    simp only [localAdd_slots]
    rw [hlo, hhi]
    simp only [Option.getD_some]
    show (textDeleteRangeOp _ sp' ep').slots = _
    unfold textDeleteRangeOp
    simp only
    rw [localAdd_slots]
    exact deleteRange_strict st.slots exA sp' ep' hnd hspex hepex hlo hhi

theorem suggestion_resolution_witness :
    ((logGet delSt.log "D").getD []).find?
        (fun s => s.action = AnnotationAction.addition) = some delRecD ∧
    (applyUpdateOperations delRecD ((logGet delSt.log "D").getD [])).description
        = some AnnotationDescription.deleteSuggestion ∧
    (acceptSuggestion delSt "D").slots = deleteRangeSlots delSt.slots 0 1 :=
  ⟨by decide, by decide,
   (suggestion_resolution delSt "D" delRecD
      (applyUpdateOperations delRecD ((logGet delSt.log "D").getD []))
      (by decide) rfl).2.1 (by decide) 0 1 (by decide) (by decide)⟩
